import Mathlib

/-!
Verification development for the subgraph/energy algebra of hades/utils.py.

Variables are labelled by natural numbers, biases are rationals. A binary
quadratic model (BQM) is modelled from the spec as the external Model
capability: a linear bias per variable, a quadratic bias per unordered pair,
an offset, and a domain tag. Samples (assignments) are association lists,
modelling Python dicts.
-/

/-- Domain tag of a model. `OTHER` stands for any tag other than the two
supported domains. -/
inductive Vartype
  | BINARY
  | SPIN
  | OTHER
deriving DecidableEq, Repr

/-- An assignment: a finite map from variable labels to values, modelled as an
association list (a Python dict with these key-value pairs). -/
abbrev Sample := List (Nat × ℚ)

/-- Keys of an association list. -/
def keysOf (s : Sample) : List Nat := s.map Prod.fst

/-- Dict lookup returning an optional value (first matching key). -/
def lookup? : Sample → Nat → Option ℚ
  | [], _ => none
  | p :: rest, k => if p.1 = k then some p.2 else lookup? rest k

/-- Dict lookup with default 0 for a missing key. -/
def lookupD (s : Sample) (k : Nat) : ℚ := (lookup? s k).getD 0

/-- Binary quadratic model, modelled from the spec as the Model capability:
linear biases (one entry per variable), quadratic biases (one entry per
unordered pair of distinct variables), a scalar offset and a domain tag. -/
structure BQM where
  linear : List (Nat × ℚ)
  quadratic : List ((Nat × Nat) × ℚ)
  offset : ℚ
  vartype : Vartype
deriving DecidableEq, Repr

/-- The variables of a model are the keys of its linear biases. -/
def BQM.variables (b : BQM) : List Nat := b.linear.map Prod.fst

/-- Canonical representative of an unordered pair. -/
def ukey (e : Nat × Nat) : Nat × Nat := if e.1 ≤ e.2 then e else (e.2, e.1)

/-- Well-formedness of a model: distinct variables, quadratic endpoints are
distinct member variables, and each unordered pair appears at most once. -/
def BQM.wf (b : BQM) : Prop :=
  b.variables.Nodup ∧
  (∀ q ∈ b.quadratic, q.1.1 ≠ q.1.2 ∧ q.1.1 ∈ b.variables ∧ q.1.2 ∈ b.variables) ∧
  (b.quadratic.map (fun q => ukey q.1)).Nodup

instance (b : BQM) : Decidable b.wf := by
  unfold BQM.wf; infer_instance

/-- Neighbor entries of a variable among a list of quadratic terms. -/
def adjList (u : Nat) : List ((Nat × Nat) × ℚ) → List (Nat × ℚ)
  | [] => []
  | q :: rest =>
    if q.1.1 = u then (q.1.2, q.2) :: adjList u rest
    else if q.1.2 = u then (q.1.1, q.2) :: adjList u rest
    else adjList u rest

/-- Adjacency of a variable: the neighbors together with the coupling biases,
read off the quadratic terms (dimod adj view, modelled from the spec). -/
def BQM.adj (b : BQM) (u : Nat) : List (Nat × ℚ) := adjList u b.quadratic

/-- Energy of a model under a total valuation of the variables. -/
def energyF (b : BQM) (f : Nat → ℚ) : ℚ :=
  b.offset + (b.linear.map (fun p => p.2 * f p.1)).sum
    + (b.quadratic.map (fun q => q.2 * f q.1.1 * f q.1.2)).sum

/-- Energy of a model at a sample dict (missing keys default to 0; the
guarded version `energy?` below refuses incomplete samples). -/
def BQM.energyVal (b : BQM) (s : Sample) : ℚ := energyF b (lookupD s)

/-- Energy evaluation, modelled from the spec: the Model capability evaluates
a full assignment and a missing variable is a lookup failure. -/
def BQM.energy? (b : BQM) (s : Sample) : Option ℚ :=
  if ∀ v ∈ b.variables, v ∈ keysOf s then some (b.energyVal s) else none

/-- Descending order on (gain, variable) pairs: Python reverse tuple sort,
so larger gains first and, on equal gains, larger variable labels first. -/
def pairGE (p q : ℚ × Nat) : Prop := q.1 < p.1 ∨ (q.1 = p.1 ∧ q.2 ≤ p.2)

instance : DecidableRel pairGE := by
  unfold pairGE; infer_instance

instance : IsTotal (ℚ × Nat) pairGE := by
  constructor
  intro a b
  unfold pairGE
  rcases lt_trichotomy a.1 b.1 with h | h | h
  · exact Or.inr (Or.inl h)
  · rcases Nat.le_total b.2 a.2 with h2 | h2
    · exact Or.inl (Or.inr ⟨h.symm, h2⟩)
    · exact Or.inr (Or.inr ⟨h, h2⟩)
  · exact Or.inl (Or.inl h)

instance : IsTrans (ℚ × Nat) pairGE := by
  constructor
  intro a b c hab hbc
  unfold pairGE at *
  rcases hab with h1 | ⟨h1, h1n⟩
  · rcases hbc with h2 | ⟨h2, h2n⟩
    · exact Or.inl (lt_trans h2 h1)
    · exact Or.inl (lt_of_eq_of_lt h2 h1)
  · rcases hbc with h2 | ⟨h2, h2n⟩
    · exact Or.inl (lt_of_lt_of_eq h2 h1)
    · exact Or.inr ⟨h2.trans h1, h2n.trans h1n⟩

instance : IsAntisymm (ℚ × Nat) pairGE := by
  constructor
  intro a b hab hba
  unfold pairGE at *
  rcases hab with h1 | ⟨h1, h1n⟩
  · rcases hba with h2 | ⟨h2, h2n⟩
    · exact absurd h1 (not_lt_of_gt h2)
    · exact absurd (lt_of_lt_of_eq h1 h2) (lt_irrefl _)
  · rcases hba with h2 | ⟨h2, h2n⟩
    · exact absurd (lt_of_lt_of_eq h2 h1) (lt_irrefl _)
    · exact Prod.ext h2 (Nat.le_antisymm h2n h1n)

/-- sample_as_list: sort the dict keys; fail when they are not contiguous;
otherwise list the values in key order (utils.py lines 375-399). -/
def sample_as_list (s : Sample) : Option (List ℚ) :=
  match List.insertionSort (· ≤ ·) (keysOf s) with
  | [] => some []
  | i :: is =>
    if is.getLastD i - i + 1 ≠ (i :: is).length then none
    else some ((i :: is).map (lookupD s))

/-- Pair each value of a list with its position, starting at a given index. -/
def enumFromQ (i : Nat) : List ℚ → Sample
  | [] => []
  | v :: l => (i, v) :: enumFromQ (i + 1) l

/-- sample_as_dict on a list argument: dict(enumerate(sample))
(utils.py lines 402-410); on a dict argument the function is the identity. -/
def sample_as_dict_ofList (l : List ℚ) : Sample := enumFromQ 0 l

/-- Flip of a single value, per domain (utils.py lines 147-152):
BINARY sends val to 1 - val, SPIN sends val to -val, others fail. -/
def flipFn : Vartype → Option (ℚ → ℚ)
  | .BINARY => some (fun val => 1 - val)
  | .SPIN => some (fun val => -val)
  | .OTHER => none

/-- Per-flip multiplier delta (utils.py lines 194-203): BINARY gives
1 - 2 val, SPIN gives -2 val, others fail. -/
def deltaFn : Vartype → Option (ℚ → ℚ)
  | .BINARY => some (fun val => 1 - 2 * val)
  | .SPIN => some (fun val => -(2 * val))
  | .OTHER => none

/-- contrib of a variable under a total valuation: linear bias plus the sum
of coupling times neighbor value. -/
def contribF (b : BQM) (f : Nat → ℚ) (v : Nat) : ℚ :=
  lookupD b.linear v + ((b.adj v).map (fun p => p.2 * f p.1)).sum

/-- contrib of a variable (utils.py line 210): linear bias plus the sum of
coupling times neighbor value. -/
def contrib (b : BQM) (s : Sample) (v : Nat) : ℚ := contribF b (lookupD s) v

/-- flip_energy_gains_iterative (utils.py lines 167-214): for each sample
entry, pair contrib times delta with the variable, then sort in reverse. -/
def flip_energy_gains_iterative (b : BQM) (s : Sample) : Option (List (ℚ × Nat)) :=
  (deltaFn b.vartype).map (fun delta =>
    List.insertionSort pairGE (s.map (fun p => (contrib b s p.1 * delta p.2, p.1))))

/-- Evaluate an option-valued function at each list element, failing when any
evaluation fails. -/
def mapOpt (f : α → Option β) : List α → Option (List β)
  | [] => some []
  | a :: l => (f a).bind (fun b => (mapOpt f l).map (fun bs => b :: bs))

/-- flip_energy_gains_naive (utils.py lines 139-158): whole-model energy is
recomputed before and after each single flip of the sample in list form, and
the (gain, index) pairs are sorted in reverse. -/
def flip_energy_gains_naive (b : BQM) (s : Sample) : Option (List (ℚ × Nat)) :=
  (flipFn b.vartype).bind (fun flip =>
    (b.energy? s).bind (fun base =>
      (sample_as_list s).bind (fun lst =>
        (mapOpt (fun p =>
            (b.energy? (sample_as_dict_ofList
                (lst.take p.1 ++ flip p.2 :: lst.drop (p.1 + 1)))).map
              (fun e => (e - base, p.1))) (enumFromQ 0 lst)).map
          (fun gains => List.insertionSort pairGE gains))))

/-- flip_energy_gains is the iterative form (utils.py line 217). -/
def flip_energy_gains : BQM → Sample → Option (List (ℚ × Nat)) :=
  flip_energy_gains_iterative

/-- Keep the (gain, variable) pairs whose gain reaches the threshold. -/
def filterGE (g : ℚ) : List (ℚ × Nat) → List (ℚ × Nat)
  | [] => []
  | p :: rest => if g ≤ p.1 then p :: filterGE g rest else filterGE g rest

/-- select_localsearch_adversaries (utils.py lines 220-262). -/
def select_localsearch_adversaries (b : BQM) (s : Sample)
    (max_n : Option Nat) (min_gain : Option ℚ) : Option (List Nat) :=
  (flip_energy_gains b s).map (fun var_gains =>
    let m := max_n.getD s.length
    let vs :=
      match min_gain with
      | none => var_gains.map Prod.snd
      | some g => (filterGE g var_gains).map Prod.snd
    vs.take m)

/-- bqm_edges_between_variables (utils.py lines 110-136): quadratic edges
with both endpoints in the subset, then a self-edge for each linear key in
the subset. -/
def bqm_edges_between_variables (b : BQM) (vars : List Nat) : List (Nat × Nat) :=
  (b.quadratic.filter (fun q => q.1.1 ∈ vars ∧ q.1.2 ∈ vars)).map Prod.fst
    ++ (b.variables.filter (fun v => v ∈ vars)).map (fun v => (v, v))

/-- Add a bias to the linear entry of a variable, creating the entry when
missing (dimod add_variable, modelled from the spec Model capability). -/
def bumpLin : List (Nat × ℚ) → Nat → ℚ → List (Nat × ℚ)
  | [], u, h => [(u, h)]
  | p :: rest, u, h =>
    if p.1 = u then (p.1, p.2 + h) :: rest else p :: bumpLin rest u h

/-- Create a linear entry with bias 0 when the variable is missing. -/
def ensureVar (l : List (Nat × ℚ)) (u : Nat) : List (Nat × ℚ) :=
  if u ∈ l.map Prod.fst then l else l ++ [(u, 0)]

/-- Add a bias to the quadratic entry of an unordered pair, creating the
entry when missing. -/
def bumpQuad : List ((Nat × Nat) × ℚ) → Nat × Nat → ℚ → List ((Nat × Nat) × ℚ)
  | [], key, j => [(key, j)]
  | q :: rest, key, j =>
    if ukey q.1 = ukey key then (q.1, q.2 + j) :: rest
    else q :: bumpQuad rest key j

/-- dimod add_interaction, modelled from the spec Model capability: ensure
both endpoints exist and accumulate the quadratic bias of the pair. -/
def addInteraction (b : BQM) (u v : Nat) (j : ℚ) : BQM :=
  { b with linear := ensureVar (ensureVar b.linear u) v,
           quadratic := bumpQuad b.quadratic (u, v) j }

/-- dimod add_variable, modelled from the spec Model capability. -/
def addVariable (b : BQM) (u : Nat) (h : ℚ) : BQM :=
  { b with linear := bumpLin b.linear u h }

/-- The inner-loop body of bqm_induced_by (utils.py lines 97-101): a kept
neighbor contributes half the coupling as an interaction of the subgraph,
a boundary neighbor folds coupling times fixed value into the bias. -/
def innerF (b : BQM) (vars : List Nat) (fv : Sample) (u : Nat)
    (p : BQM × ℚ) (vj : Nat × ℚ) : BQM × ℚ :=
  if vj.1 ∈ vars then (addInteraction p.1 u vj.1 (vj.2 / 2), p.2)
  else (p.1, p.2 + vj.2 * lookupD fv vj.1)

/-- One outer-loop step of bqm_induced_by (utils.py lines 95-102): walk the
adjacency of a kept variable, copying halved couplings into the subgraph and
folding boundary contributions into the linear bias. -/
def inducedStep (b : BQM) (vars : List Nat) (fv : Sample) (acc : BQM) (u : Nat) : BQM :=
  let res := (b.adj u).foldl (innerF b vars fv u) (acc, lookupD b.linear u)
  addVariable res.1 u res.2

/-- bqm_induced_by (utils.py lines 54-107). -/
def bqm_induced_by (b : BQM) (vars : List Nat) (fv : Sample) : BQM :=
  let sub := vars.foldl (inducedStep b vars fv)
    { linear := [], quadratic := [], offset := 0, vartype := b.vartype }
  { sub with offset := 0 }

/-- Total coupling of the quadratic terms of a variable pair. -/
def adjBias (b : BQM) (v u : Nat) : ℚ :=
  (((b.adj v).filter (fun p => p.1 = u)).map Prod.snd).sum

/-- Total linear bias carried by a variable in a bias list. -/
def linSum (l : List (Nat × ℚ)) (u : Nat) : ℚ :=
  ((l.filter (fun p => p.1 = u)).map Prod.snd).sum

/-- Total quadratic bias carried by an unordered pair in a term list. -/
def quadSum (Q : List ((Nat × Nat) × ℚ)) (k : Nat × Nat) : ℚ :=
  ((Q.filter (fun q => ukey q.1 = ukey k)).map Prod.snd).sum

/-- dimod fix_variable, modelled from the spec Model capability: substitute a
value for a variable, folding its couplings into the neighbor linear biases
and its linear term into the offset, then drop the variable. -/
def BQM.fix_variable (b : BQM) (v : Nat) (val : ℚ) : BQM where
  linear := (b.linear.filter (fun p => p.1 ≠ v)).map
    (fun p => (p.1, p.2 + val * adjBias b v p.1))
  quadratic := b.quadratic.filter (fun q => q.1.1 ≠ v ∧ q.1.2 ≠ v)
  offset := b.offset + val * lookupD b.linear v
  vartype := b.vartype

/-- bqm_reduced_to (utils.py lines 12-51): fix every variable outside the
kept subset at its given value; optionally zero the offset. -/
def bqm_reduced_to (b : BQM) (vars : List Nat) (fv : Sample)
    (keep_offset : Bool := true) : BQM :=
  let fixed := b.variables.filter (fun v => v ∉ vars)
  let subbqm := fixed.foldl (fun acc v => acc.fix_variable v (lookupD fv v)) b
  if keep_offset then subbqm else { subbqm with offset := 0 }

/-- Draw without replacement: each step picks an index from the random
source and removes the drawn element. Modelled from the spec: python
random.sample is external; the spec requires sampling without replacement
from a seedable source. -/
def draw (g : Nat → Nat) : Nat → Nat → List Nat → List Nat
  | 0, _, _ => []
  | k + 1, step, pop =>
    if h : pop.length = 0 then []
    else
      let x := pop.get ⟨g step % pop.length, Nat.mod_lt _ (Nat.pos_of_ne_zero h)⟩
      x :: draw g k (step + 1) (pop.erase x)

/-- select_random_subgraph (utils.py lines 265-287): random.sample over the
linear keys, which fails when the requested size is negative or exceeds the
population. -/
def select_random_subgraph (b : BQM) (g : Nat → Nat) (n : Int) : Option (List Nat) :=
  if n < 0 ∨ (b.variables.length : Int) < n then none
  else some (draw g n.toNat 0 b.variables)

/-- The 4-variable SPIN model of the docstring examples: couplings
(a,b)=0, (b,c)=1, (c,d)=2, with a..d as labels 0..3. -/
def exBqm : BQM :=
  { linear := [(0, 0), (1, 0), (2, 0), (3, 0)],
    quadratic := [((0, 1), 0), ((1, 2), 1), ((2, 3), 2)],
    offset := 0,
    vartype := .SPIN }

/-- The docstring sample a=-1, b=1, c=1, d=-1. -/
def exSample : Sample := [(0, -1), (1, 1), (2, 1), (3, -1)]

/-- The 3-variable BINARY triangle model of the reduction docstring example:
couplings (a,b)=(b,c)=(c,a)=-1, with a, b, c as labels 0, 1, 2. -/
def triBqm : BQM :=
  { linear := [(0, 0), (1, 0), (2, 0)],
    quadratic := [((0, 1), -1), ((1, 2), -1), ((2, 0), -1)],
    offset := 0,
    vartype := .BINARY }

/-- The 6-variable BINARY path-graph model of the induction docstring
example: couplings (i, i+1) = i. -/
def pathBqm : BQM :=
  { linear := [(0, 0), (1, 0), (2, 0), (3, 0), (4, 0), (5, 0)],
    quadratic := [((0, 1), 0), ((1, 2), 1), ((2, 3), 2), ((3, 4), 3), ((4, 5), 4)],
    offset := 0,
    vartype := .BINARY }

/-- A SPIN model whose variable labels 1, 2 are contiguous but do not start
at 0: coupling (1,2)=1. -/
def cexBqm : BQM :=
  { linear := [(1, 0), (2, 0)],
    quadratic := [((1, 2), 1)],
    offset := 0,
    vartype := .SPIN }

/-- A sample over the variables of `cexBqm`. -/
def cexSample : Sample := [(1, 1), (2, 1)]

/-- A model whose domain tag is neither BINARY nor SPIN. -/
def otherBqm : BQM :=
  { linear := [(0, 0)], quadratic := [], offset := 0, vartype := .OTHER }

/-! ### Generic list-sum and lookup lemmas -/

theorem sum_map_add (l : List α) (f g : α → ℚ) :
    (l.map (fun a => f a + g a)).sum = (l.map f).sum + (l.map g).sum := by
  induction l with
  | nil => simp
  | cons a l ih => simp [ih]; ring

theorem sum_map_sub (l : List α) (f g : α → ℚ) :
    (l.map (fun a => f a - g a)).sum = (l.map f).sum - (l.map g).sum := by
  induction l with
  | nil => simp
  | cons a l ih => simp [ih]; ring

theorem sum_map_mul_left (l : List α) (c : ℚ) (f : α → ℚ) :
    (l.map (fun a => c * f a)).sum = c * (l.map f).sum := by
  induction l with
  | nil => simp
  | cons a l ih => simp [ih]; ring

theorem sum_map_zero (l : List α) (f : α → ℚ) (h : ∀ a ∈ l, f a = 0) :
    (l.map f).sum = 0 := by
  induction l with
  | nil => simp
  | cons a l ih =>
    simp only [List.map_cons, List.sum_cons]
    rw [h a (List.mem_cons_self a l), ih (fun x hx => h x (List.mem_cons_of_mem a hx))]
    ring

theorem sum_swap (l : List α) (m : List β) (f : α → β → ℚ) :
    (l.map (fun a => (m.map (f a)).sum)).sum
      = (m.map (fun b => (l.map (fun a => f a b)).sum)).sum := by
  induction l with
  | nil => simp [sum_map_zero]
  | cons a l ih =>
    simp only [List.map_cons, List.sum_cons, ih]
    rw [← sum_map_add]

theorem sum_single [DecidableEq α] (l : List α) (u : α) (f : α → ℚ)
    (hnd : l.Nodup) (hu : u ∈ l) (hz : ∀ x ∈ l, x ≠ u → f x = 0) :
    (l.map f).sum = f u := by
  induction l with
  | nil => exact absurd hu (List.not_mem_nil u)
  | cons a l ih =>
    simp only [List.map_cons, List.sum_cons]
    rcases List.mem_cons.mp hu with rfl | hu2
    · rw [sum_map_zero l f (fun x hx => hz x (List.mem_cons_of_mem _ hx)
        (fun hxu => (List.nodup_cons.mp hnd).1 (hxu ▸ hx)))]
      ring
    · rw [hz a (List.mem_cons_self a l)
        (fun hau => (List.nodup_cons.mp hnd).1 (hau ▸ hu2))]
      rw [ih (List.nodup_cons.mp hnd).2 hu2
        (fun x hx hxu => hz x (List.mem_cons_of_mem _ hx) hxu)]
      ring

theorem sum_filter_if (l : List α) (p : α → Prop) [DecidablePred p] (g : α → ℚ) :
    ((l.filter (fun a => p a)).map g).sum
      = (l.map (fun a => if p a then g a else 0)).sum := by
  induction l with
  | nil => simp
  | cons a l ih =>
    by_cases h : p a <;>
      simp [List.filter_cons, h, ih]

/-! ### Lookup and keys lemmas -/

theorem keysOf_nil : keysOf [] = [] := rfl

theorem keysOf_cons (p : Nat × ℚ) (s : Sample) :
    keysOf (p :: s) = p.1 :: keysOf s := rfl

theorem keysOf_append (s t : Sample) : keysOf (s ++ t) = keysOf s ++ keysOf t :=
  List.map_append Prod.fst s t

theorem lookup?_cons (p : Nat × ℚ) (rest : Sample) (k : Nat) :
    lookup? (p :: rest) k = if p.1 = k then some p.2 else lookup? rest k := rfl

theorem lookup?_eq_none (s : Sample) (k : Nat) (h : k ∉ keysOf s) :
    lookup? s k = none := by
  induction s with
  | nil => rfl
  | cons p rest ih =>
    rw [keysOf_cons] at h
    have hne : p.1 ≠ k := fun he => h (he ▸ List.mem_cons_self p.1 (keysOf rest))
    rw [lookup?_cons, if_neg hne]
    exact ih (fun hm => h (List.mem_cons_of_mem _ hm))

theorem lookupD_eq_zero (s : Sample) (k : Nat) (h : k ∉ keysOf s) :
    lookupD s k = 0 := by
  rw [lookupD, lookup?_eq_none s k h]; rfl

theorem lookup?_mem (s : Sample) (p : Nat × ℚ)
    (hnd : (keysOf s).Nodup) (hp : p ∈ s) : lookup? s p.1 = some p.2 := by
  induction s with
  | nil => exact absurd hp (List.not_mem_nil p)
  | cons q rest ih =>
    rw [keysOf_cons] at hnd
    rcases List.mem_cons.mp hp with rfl | hp2
    · rw [lookup?_cons, if_pos rfl]
    · have hk : q.1 ≠ p.1 := fun he =>
        (List.nodup_cons.mp hnd).1 (he ▸ List.mem_map_of_mem Prod.fst hp2)
      rw [lookup?_cons, if_neg hk]
      exact ih (List.nodup_cons.mp hnd).2 hp2

theorem lookup?_append_left (s t : Sample) (k : Nat) (h : k ∈ keysOf s) :
    lookup? (s ++ t) k = lookup? s k := by
  induction s with
  | nil => exact absurd h (List.not_mem_nil k)
  | cons p rest ih =>
    rw [keysOf_cons] at h
    by_cases he : p.1 = k
    · rw [List.cons_append, lookup?_cons, if_pos he, lookup?_cons, if_pos he]
    · rw [List.cons_append, lookup?_cons, if_neg he, lookup?_cons, if_neg he]
      exact ih (by
        rcases List.mem_cons.mp h with h1 | h1
        · exact absurd h1.symm he
        · exact h1)

theorem lookup?_append_right (s t : Sample) (k : Nat) (h : k ∉ keysOf s) :
    lookup? (s ++ t) k = lookup? t k := by
  induction s with
  | nil => rfl
  | cons p rest ih =>
    rw [keysOf_cons] at h
    have hne : p.1 ≠ k := fun he => h (he ▸ List.mem_cons_self p.1 (keysOf rest))
    rw [List.cons_append, lookup?_cons, if_neg hne]
    exact ih (fun hm => h (List.mem_cons_of_mem _ hm))

theorem mem_keysOf_of_lookup? (s : Sample) (k : Nat) (x : ℚ)
    (h : lookup? s k = some x) : k ∈ keysOf s := by
  induction s with
  | nil => exact absurd h (by rw [lookup?]; exact Option.noConfusion)
  | cons p rest ih =>
    rw [keysOf_cons]
    by_cases he : p.1 = k
    · exact he ▸ List.mem_cons_self p.1 (keysOf rest)
    · rw [lookup?_cons, if_neg he] at h
      exact List.mem_cons_of_mem _ (ih h)

theorem keysOf_filter_ne (l : List (Nat × ℚ)) (v : Nat) :
    keysOf (l.filter (fun p => p.1 ≠ v)) = (keysOf l).filter (fun x => x ≠ v) := by
  induction l with
  | nil => rfl
  | cons p rest ih =>
    by_cases h : p.1 = v
    · have hc : ¬(decide (p.1 ≠ v) = true) := by simp [h]
      rw [keysOf_cons, List.filter_cons, List.filter_cons, if_neg hc, if_neg hc]
      exact ih
    · have hc : decide (p.1 ≠ v) = true := by simp [h]
      rw [keysOf_cons, List.filter_cons, List.filter_cons, if_pos hc, if_pos hc,
        keysOf_cons, ih]

theorem sum_filter_of_mem (l : List (Nat × ℚ)) (v : Nat) (g : Nat × ℚ → ℚ)
    (hnd : (keysOf l).Nodup) (hv : v ∈ keysOf l) :
    (l.map g).sum = ((l.filter (fun p => p.1 ≠ v)).map g).sum + g (v, lookupD l v) := by
  induction l with
  | nil => exact absurd hv (List.not_mem_nil v)
  | cons p rest ih =>
    rw [keysOf_cons] at hnd hv
    have hnd2 := List.nodup_cons.mp hnd
    by_cases h : p.1 = v
    · have hrest : v ∉ keysOf rest := h ▸ hnd2.1
      have hself : rest.filter (fun p => p.1 ≠ v) = rest :=
        List.filter_eq_self.mpr (fun q hq => by
          simp only [ne_eq, decide_eq_true_eq]
          exact fun he => hrest (he ▸ List.mem_map_of_mem Prod.fst hq))
      have hp : (v, lookupD (p :: rest) v) = p := by
        have hl : lookupD (p :: rest) v = p.2 := by
          rw [lookupD, lookup?_cons, if_pos h]; rfl
        rw [hl, ← h]
      have hc : ¬(decide (p.1 ≠ v) = true) := by simp [h]
      rw [List.map_cons, List.sum_cons, List.filter_cons, if_neg hc, hself, hp]
      ring
    · have hv2 : v ∈ keysOf rest := by
        rcases List.mem_cons.mp hv with h1 | h1
        · exact absurd h1.symm h
        · exact h1
      have hlk : lookupD (p :: rest) v = lookupD rest v := by
        rw [lookupD, lookup?_cons, if_neg h, lookupD]
      have hc : decide (p.1 ≠ v) = true := by simp [h]
      rw [List.map_cons, List.sum_cons, List.filter_cons, if_pos hc, List.map_cons,
        List.sum_cons, hlk, ih hnd2.2 hv2]
      ring

/-! ### Adjacency and energy lemmas -/

theorem sum_map_mul_right (l : List α) (c : ℚ) (f : α → ℚ) :
    (l.map (fun a => f a * c)).sum = (l.map f).sum * c := by
  induction l with
  | nil => simp
  | cons a l ih => simp [ih]; ring

theorem adjList_sum (v : Nat) (Q : List ((Nat × Nat) × ℚ)) (h : Nat → ℚ → ℚ) :
    ((adjList v Q).map (fun p => h p.1 p.2)).sum
      = (Q.map (fun q =>
          if q.1.1 = v then h q.1.2 q.2
          else if q.1.2 = v then h q.1.1 q.2 else 0)).sum := by
  induction Q with
  | nil => rfl
  | cons q rest ih =>
    simp only [adjList]
    by_cases h1 : q.1.1 = v
    · rw [if_pos h1, List.map_cons, List.sum_cons, List.map_cons, List.sum_cons,
        if_pos h1, ih]
    · by_cases h2 : q.1.2 = v
      · rw [if_neg h1, if_pos h2, List.map_cons, List.sum_cons, List.map_cons,
          List.sum_cons, if_neg h1, if_pos h2, ih]
      · rw [if_neg h1, if_neg h2, List.map_cons, List.sum_cons, if_neg h1, if_neg h2,
          ih]
        ring

theorem energyF_congr (b : BQM) (f g : Nat → ℚ)
    (hq : ∀ q ∈ b.quadratic, q.1.1 ∈ b.variables ∧ q.1.2 ∈ b.variables)
    (h : ∀ u ∈ b.variables, f u = g u) : energyF b f = energyF b g := by
  have h1 : b.linear.map (fun p => p.2 * f p.1) = b.linear.map (fun p => p.2 * g p.1) :=
    List.map_congr_left (fun p hp => by rw [h p.1 (List.mem_map_of_mem Prod.fst hp)])
  have h2 : b.quadratic.map (fun q => q.2 * f q.1.1 * f q.1.2)
      = b.quadratic.map (fun q => q.2 * g q.1.1 * g q.1.2) :=
    List.map_congr_left (fun q hq2 => by
      rw [h q.1.1 (hq q hq2).1, h q.1.2 (hq q hq2).2])
  unfold energyF
  rw [h1, h2]

theorem energyF_flip (b : BQM) (f g : Nat → ℚ) (v : Nat) (hwf : b.wf)
    (hv : v ∈ b.variables) (hag : ∀ u, u ≠ v → g u = f u) :
    energyF b g - energyF b f = (g v - f v) * contribF b f v := by
  have hg := sum_filter_of_mem b.linear v (fun p => p.2 * g p.1) hwf.1 hv
  have hf := sum_filter_of_mem b.linear v (fun p => p.2 * f p.1) hwf.1 hv
  have hfg : (b.linear.filter (fun p => p.1 ≠ v)).map (fun p => p.2 * g p.1)
      = (b.linear.filter (fun p => p.1 ≠ v)).map (fun p => p.2 * f p.1) :=
    List.map_congr_left (fun p hp => by
      have hne : p.1 ≠ v := by simpa using List.of_mem_filter hp
      rw [hag p.1 hne])
  have hQg : b.quadratic.map (fun q => q.2 * g q.1.1 * g q.1.2)
      = b.quadratic.map (fun q => q.2 * f q.1.1 * f q.1.2
          + (g v - f v) * (if q.1.1 = v then q.2 * f q.1.2
              else if q.1.2 = v then q.2 * f q.1.1 else 0)) :=
    List.map_congr_left (fun q hq => by
      rcases hwf.2.1 q hq with ⟨hne, _, _⟩
      by_cases h1 : q.1.1 = v
      · have h2 : q.1.2 ≠ v := fun he => hne (h1.trans he.symm)
        rw [if_pos h1, hag q.1.2 h2, h1]
        ring
      · by_cases h2 : q.1.2 = v
        · rw [if_neg h1, if_pos h2, hag q.1.1 h1, h2]
          ring
        · rw [if_neg h1, if_neg h2, hag q.1.1 h1, hag q.1.2 h2]
          ring)
  unfold energyF contribF BQM.adj
  rw [hg, hf, hfg, hQg, sum_map_add, sum_map_mul_left,
    ← adjList_sum v b.quadratic (fun x j => j * f x)]
  simp only []
  ring

/-! ### Fixing a variable preserves energy -/

theorem sum_over_keys (l : List (Nat × ℚ)) (φ : Nat → ℚ) :
    (l.map (fun p => φ p.1)).sum = ((keysOf l).map φ).sum := by
  rw [keysOf, List.map_map]
  rfl

theorem sum_map_fst_single (l : List (Nat × ℚ)) (u : Nat) (g : Nat → ℚ)
    (hnd : (keysOf l).Nodup) (hu : u ∈ keysOf l)
    (hz : ∀ x ∈ keysOf l, x ≠ u → g x = 0) :
    (l.map (fun p => g p.1)).sum = g u := by
  rw [sum_over_keys]
  exact sum_single (keysOf l) u g hnd hu hz

theorem adjBias_eq (b : BQM) (v u : Nat) :
    adjBias b v u = (b.quadratic.map (fun q =>
      if q.1.1 = v then (if q.1.2 = u then q.2 else 0)
      else if q.1.2 = v then (if q.1.1 = u then q.2 else 0) else 0)).sum := by
  unfold adjBias
  rw [sum_filter_if (b.adj v) (fun p => p.1 = u) Prod.snd]
  rw [show (fun p : Nat × ℚ => if p.1 = u then p.2 else 0)
      = (fun p : Nat × ℚ => (fun x j => if x = u then j else 0) p.1 p.2) from rfl]
  rw [show (b.adj v) = adjList v b.quadratic from rfl]
  rw [adjList_sum v b.quadratic (fun x j => if x = u then j else 0)]

theorem fix_variable_energyF (b : BQM) (v : Nat) (f : Nat → ℚ) (hwf : b.wf)
    (hv : v ∈ b.variables) :
    energyF (b.fix_variable v (f v)) f = energyF b f := by
  have hLfix : ((b.linear.filter (fun p => p.1 ≠ v)).map
      (fun p => (p.1, p.2 + f v * adjBias b v p.1))).map (fun p => p.2 * f p.1)
      = (b.linear.filter (fun p => p.1 ≠ v)).map
          (fun p => p.2 * f p.1 + f v * (adjBias b v p.1 * f p.1)) := by
    rw [List.map_map]
    exact List.map_congr_left (fun p hp => by
      simp only [Function.comp]
      ring)
  have hstep1 : ((b.fix_variable v (f v)).linear.map (fun p => p.2 * f p.1)).sum
      = ((b.linear.filter (fun p => p.1 ≠ v)).map (fun p => p.2 * f p.1)).sum
        + f v * ((b.linear.filter (fun p => p.1 ≠ v)).map
            (fun p => adjBias b v p.1 * f p.1)).sum := by
    show (((b.linear.filter (fun p => p.1 ≠ v)).map
      (fun p => (p.1, p.2 + f v * adjBias b v p.1))).map (fun p => p.2 * f p.1)).sum = _
    rw [hLfix, sum_map_add, sum_map_mul_left]
  have key : ((b.linear.filter (fun p => p.1 ≠ v)).map
      (fun p => adjBias b v p.1 * f p.1)).sum
      = (b.quadratic.map (fun q => if q.1.1 = v then q.2 * f q.1.2
          else if q.1.2 = v then q.2 * f q.1.1 else 0)).sum := by
    have h1 : (b.linear.filter (fun p => p.1 ≠ v)).map (fun p => adjBias b v p.1 * f p.1)
        = (b.linear.filter (fun p => p.1 ≠ v)).map (fun p =>
            (b.quadratic.map (fun q => (if q.1.1 = v then (if q.1.2 = p.1 then q.2 else 0)
              else if q.1.2 = v then (if q.1.1 = p.1 then q.2 else 0) else 0) * f p.1)).sum) :=
      List.map_congr_left (fun p hp => by
        rw [adjBias_eq, ← sum_map_mul_right])
    rw [h1, sum_swap]
    refine congrArg List.sum (List.map_congr_left (fun q hq => ?_))
    have hkeys : keysOf (b.linear.filter (fun p => p.1 ≠ v))
        = (keysOf b.linear).filter (fun x => x ≠ v) := keysOf_filter_ne b.linear v
    have hnd : (keysOf (b.linear.filter (fun p => p.1 ≠ v))).Nodup := by
      rw [hkeys]; exact hwf.1.filter _
    rcases hwf.2.1 q hq with ⟨hne, hm1, hm2⟩
    by_cases h1 : q.1.1 = v
    · have h2 : q.1.2 ≠ v := fun he => hne (h1.trans he.symm)
      have hs := sum_map_fst_single (b.linear.filter (fun p => p.1 ≠ v)) q.1.2
        (fun x => (if q.1.1 = v then (if q.1.2 = x then q.2 else 0)
            else if q.1.2 = v then (if q.1.1 = x then q.2 else 0) else 0) * f x)
        hnd
        (by rw [hkeys]; exact List.mem_filter.mpr ⟨hm2, by simp [h2]⟩)
        (fun x hx hxe => by
          show (if q.1.1 = v then (if q.1.2 = x then q.2 else 0)
            else if q.1.2 = v then (if q.1.1 = x then q.2 else 0) else 0) * f x = 0
          rw [if_pos h1, if_neg (fun he => hxe he.symm)]
          ring)
      refine hs.trans ?_
      show (if q.1.1 = v then (if q.1.2 = q.1.2 then q.2 else 0)
          else if q.1.2 = v then (if q.1.1 = q.1.2 then q.2 else 0) else 0) * f q.1.2
        = if q.1.1 = v then q.2 * f q.1.2 else if q.1.2 = v then q.2 * f q.1.1 else 0
      rw [if_pos h1, if_pos rfl, if_pos h1]
    · by_cases h2 : q.1.2 = v
      · have hs := sum_map_fst_single (b.linear.filter (fun p => p.1 ≠ v)) q.1.1
          (fun x => (if q.1.1 = v then (if q.1.2 = x then q.2 else 0)
              else if q.1.2 = v then (if q.1.1 = x then q.2 else 0) else 0) * f x)
          hnd
          (by rw [hkeys]; exact List.mem_filter.mpr ⟨hm1, by simp [h1]⟩)
          (fun x hx hxe => by
            show (if q.1.1 = v then (if q.1.2 = x then q.2 else 0)
              else if q.1.2 = v then (if q.1.1 = x then q.2 else 0) else 0) * f x = 0
            rw [if_neg h1, if_pos h2, if_neg (fun he => hxe he.symm)]
            ring)
        refine hs.trans ?_
        show (if q.1.1 = v then (if q.1.2 = q.1.1 then q.2 else 0)
            else if q.1.2 = v then (if q.1.1 = q.1.1 then q.2 else 0) else 0) * f q.1.1
          = if q.1.1 = v then q.2 * f q.1.2 else if q.1.2 = v then q.2 * f q.1.1 else 0
        rw [if_neg h1, if_pos h2, if_pos rfl, if_neg h1, if_pos h2]
      · rw [if_neg h1, if_neg h2]
        exact sum_map_zero _ _ (fun p hp => by
          show (if q.1.1 = v then (if q.1.2 = p.1 then q.2 else 0)
            else if q.1.2 = v then (if q.1.1 = p.1 then q.2 else 0) else 0) * f p.1 = 0
          rw [if_neg h1, if_neg h2]
          ring)
  have eL : (b.linear.map (fun p => p.2 * f p.1)).sum
      = ((b.linear.filter (fun p => p.1 ≠ v)).map (fun p => p.2 * f p.1)).sum
        + lookupD b.linear v * f v := by
    have h := sum_filter_of_mem b.linear v (fun p => p.2 * f p.1) hwf.1 hv
    simpa using h
  have hsplitQ : b.quadratic.map (fun q => q.2 * f q.1.1 * f q.1.2)
      = b.quadratic.map (fun q =>
          (if q.1.1 ≠ v ∧ q.1.2 ≠ v then q.2 * f q.1.1 * f q.1.2 else 0)
          + (if q.1.1 ≠ v ∧ q.1.2 ≠ v then 0 else q.2 * f q.1.1 * f q.1.2)) :=
    List.map_congr_left (fun q hq => by
      by_cases h : q.1.1 ≠ v ∧ q.1.2 ≠ v
      · rw [if_pos h, if_pos h]; ring
      · rw [if_neg h, if_neg h]; ring)
  have htouch : b.quadratic.map
        (fun q => if q.1.1 ≠ v ∧ q.1.2 ≠ v then 0 else q.2 * f q.1.1 * f q.1.2)
      = b.quadratic.map (fun q => f v * (if q.1.1 = v then q.2 * f q.1.2
          else if q.1.2 = v then q.2 * f q.1.1 else 0)) :=
    List.map_congr_left (fun q hq => by
      rcases hwf.2.1 q hq with ⟨hne, _, _⟩
      by_cases h1 : q.1.1 = v
      · have hc : ¬(q.1.1 ≠ v ∧ q.1.2 ≠ v) := fun hc => hc.1 h1
        rw [if_neg hc, if_pos h1, h1]
        ring
      · by_cases h2 : q.1.2 = v
        · have hc : ¬(q.1.1 ≠ v ∧ q.1.2 ≠ v) := fun hc => hc.2 h2
          rw [if_neg hc, if_neg h1, if_pos h2, h2]
          ring
        · rw [if_pos ⟨h1, h2⟩, if_neg h1, if_neg h2]
          ring)
  have eQ : (b.quadratic.map (fun q => q.2 * f q.1.1 * f q.1.2)).sum
      = (((b.quadratic.filter (fun q => q.1.1 ≠ v ∧ q.1.2 ≠ v)).map
            (fun q => q.2 * f q.1.1 * f q.1.2)).sum)
        + f v * (b.quadratic.map (fun q => if q.1.1 = v then q.2 * f q.1.2
            else if q.1.2 = v then q.2 * f q.1.1 else 0)).sum := by
    rw [hsplitQ, sum_map_add]
    congr 1
    · rw [sum_filter_if b.quadratic (fun q => q.1.1 ≠ v ∧ q.1.2 ≠ v)
        (fun q => q.2 * f q.1.1 * f q.1.2)]
    · rw [htouch, sum_map_mul_left]
  have hofix : (b.fix_variable v (f v)).offset = b.offset + f v * lookupD b.linear v :=
    rfl
  have hqfix : (b.fix_variable v (f v)).quadratic
      = b.quadratic.filter (fun q => q.1.1 ≠ v ∧ q.1.2 ≠ v) := rfl
  unfold energyF
  rw [hofix, hqfix, hstep1, key, eL, eQ]
  ring

theorem keysOf_map_upd (l : List (Nat × ℚ)) (h : Nat × ℚ → ℚ) :
    keysOf (l.map (fun p => (p.1, h p))) = keysOf l := by
  induction l with
  | nil => rfl
  | cons p rest ih => rw [List.map_cons, keysOf_cons, keysOf_cons, ih]

theorem fix_variable_variables (b : BQM) (v : Nat) (val : ℚ) :
    (b.fix_variable v val).variables = b.variables.filter (fun x => x ≠ v) := by
  show keysOf ((b.linear.filter (fun p => p.1 ≠ v)).map
    (fun p => (p.1, p.2 + val * adjBias b v p.1))) = _
  rw [keysOf_map_upd (b.linear.filter (fun p => p.1 ≠ v))
    (fun p => p.2 + val * adjBias b v p.1)]
  rw [keysOf_filter_ne]
  rfl

theorem fix_variable_wf (b : BQM) (v : Nat) (val : ℚ) (hwf : b.wf) :
    (b.fix_variable v val).wf := by
  refine ⟨?_, ?_, ?_⟩
  · rw [fix_variable_variables]
    exact hwf.1.filter _
  · intro q hq
    have hq2 : q ∈ b.quadratic := List.mem_of_mem_filter hq
    have hcond : q.1.1 ≠ v ∧ q.1.2 ≠ v := by simpa using List.of_mem_filter hq
    rcases hwf.2.1 q hq2 with ⟨hne, hm1, hm2⟩
    refine ⟨hne, ?_, ?_⟩
    · rw [fix_variable_variables]
      exact List.mem_filter.mpr ⟨hm1, by simp [hcond.1]⟩
    · rw [fix_variable_variables]
      exact List.mem_filter.mpr ⟨hm2, by simp [hcond.2]⟩
  · have hsub : (b.fix_variable v val).quadratic.Sublist b.quadratic :=
      List.filter_sublist _
    exact hwf.2.2.sublist (hsub.map (fun q => ukey q.1))

theorem foldl_fix_variables (L : List Nat) : ∀ (b : BQM) (g : Nat → ℚ) (w : Nat),
    (w ∈ (L.foldl (fun acc v => acc.fix_variable v (g v)) b).variables
      ↔ w ∈ b.variables ∧ w ∉ L) := by
  induction L with
  | nil => intro b g w; simp
  | cons v L ih =>
    intro b g w
    rw [List.foldl_cons, ih]
    rw [fix_variable_variables]
    constructor
    · rintro ⟨hm, hnotL⟩
      have := List.mem_filter.mp hm
      refine ⟨this.1, ?_⟩
      intro hc
      rcases List.mem_cons.mp hc with rfl | hc2
      · simp at this
      · exact hnotL hc2
    · rintro ⟨hm, hnot⟩
      refine ⟨List.mem_filter.mpr ⟨hm, ?_⟩, fun hc => hnot (List.mem_cons_of_mem v hc)⟩
      simp only [ne_eq, decide_eq_true_eq]
      exact fun he => hnot (he ▸ List.mem_cons_self v L)

theorem foldl_fix_wf (L : List Nat) : ∀ (b : BQM) (g : Nat → ℚ), b.wf →
    (L.foldl (fun acc v => acc.fix_variable v (g v)) b).wf := by
  induction L with
  | nil => intro b g h; exact h
  | cons v L ih =>
    intro b g h
    rw [List.foldl_cons]
    exact ih _ g (fix_variable_wf b v (g v) h)

theorem foldl_fix_energyF (L : List Nat) : ∀ (b : BQM) (g f : Nat → ℚ),
    b.wf → (∀ v ∈ L, v ∈ b.variables) → L.Nodup → (∀ v ∈ L, g v = f v) →
    energyF (L.foldl (fun acc v => acc.fix_variable v (g v)) b) f = energyF b f := by
  induction L with
  | nil => intro b g f _ _ _ _; rfl
  | cons v L ih =>
    intro b g f hwf hmem hnd hgf
    rw [List.foldl_cons]
    have hv : v ∈ b.variables := hmem v (List.mem_cons_self v L)
    have e1 : energyF (b.fix_variable v (g v)) f = energyF b f := by
      rw [hgf v (List.mem_cons_self v L)]
      exact fix_variable_energyF b v f hwf hv
    rw [ih (b.fix_variable v (g v)) g f (fix_variable_wf b v (g v) hwf)
      (fun w hw => by
        rw [fix_variable_variables]
        refine List.mem_filter.mpr ⟨hmem w (List.mem_cons_of_mem v hw), ?_⟩
        simp only [ne_eq, decide_eq_true_eq]
        rintro rfl
        exact (List.nodup_cons.mp hnd).1 hw)
      (List.nodup_cons.mp hnd).2
      (fun w hw => hgf w (List.mem_cons_of_mem v hw)), e1]

/-! ### Claim theorems -/

/-- C2: for every well-formed model, every subset V of its variables, every
fixed_values covering the variables outside V, and every assignment over V,
evaluating the assignment on the model returned by bqm_reduced_to with
keep_offset true equals evaluating the assignment extended by fixed_values
on the original model: the reduction is energy-preserving. -/
theorem C2_bqm_reduced_to_energy_preserving (b : BQM) (V : List Nat)
    (fv sV : Sample) (hwf : b.wf)
    (hsV : ∀ p ∈ sV, p.1 ∈ V)
    (hcover : ∀ u ∈ b.variables, u ∈ V → u ∈ keysOf sV)
    (_hfv : ∀ u ∈ b.variables, u ∉ V → u ∈ keysOf fv) :
    (bqm_reduced_to b V fv true).energyVal sV = b.energyVal (sV ++ fv) := by
  show energyF ((b.variables.filter (fun v => v ∉ V)).foldl
        (fun acc v => acc.fix_variable v (lookupD fv v)) b) (lookupD sV)
      = energyF b (lookupD (sV ++ fv))
  have hFmem : ∀ v ∈ b.variables.filter (fun v => v ∉ V), v ∈ b.variables :=
    fun v hv => List.mem_of_mem_filter hv
  have hFnd : (b.variables.filter (fun v => v ∉ V)).Nodup := hwf.1.filter _
  have hFnotV : ∀ v ∈ b.variables.filter (fun v => v ∉ V), v ∉ V :=
    fun v hv => by simpa using List.of_mem_filter hv
  have hFnotSV : ∀ v ∈ b.variables.filter (fun v => v ∉ V), v ∉ keysOf sV := by
    intro v hv hk
    obtain ⟨p, hp, hpe⟩ := List.mem_map.mp hk
    exact hFnotV v hv (hpe ▸ hsV p hp)
  have hsubwf := foldl_fix_wf (b.variables.filter (fun v => v ∉ V)) b
    (fun v => lookupD fv v) hwf
  have step1 : energyF ((b.variables.filter (fun v => v ∉ V)).foldl
        (fun acc v => acc.fix_variable v (lookupD fv v)) b) (lookupD sV)
      = energyF ((b.variables.filter (fun v => v ∉ V)).foldl
          (fun acc v => acc.fix_variable v (lookupD fv v)) b) (lookupD (sV ++ fv)) := by
    refine energyF_congr _ _ _
      (fun q hq => ⟨(hsubwf.2.1 q hq).2.1, (hsubwf.2.1 q hq).2.2⟩) ?_
    intro u hu
    have hu2 := (foldl_fix_variables (b.variables.filter (fun v => v ∉ V)) b
      (fun v => lookupD fv v) u).mp hu
    have huV : u ∈ V := by
      by_contra huV
      exact hu2.2 (List.mem_filter.mpr ⟨hu2.1, by simp [huV]⟩)
    have hk : u ∈ keysOf sV := hcover u hu2.1 huV
    simp only [lookupD]
    rw [lookup?_append_left sV fv u hk]
  have step2 : energyF ((b.variables.filter (fun v => v ∉ V)).foldl
        (fun acc v => acc.fix_variable v (lookupD fv v)) b) (lookupD (sV ++ fv))
      = energyF b (lookupD (sV ++ fv)) :=
    foldl_fix_energyF (b.variables.filter (fun v => v ∉ V)) b
      (fun v => lookupD fv v) (lookupD (sV ++ fv)) hwf hFmem hFnd
      (fun v hv => by
        simp only [lookupD]
        rw [lookup?_append_right sV fv v (hFnotSV v hv)])
  exact step1.trans step2

/-- Witness for C2 at the docstring example: the triangle model reduced to
variables 0 and 1 with variable 2 fixed to 0. -/
theorem C2_witness :
    (triBqm.wf ∧ (∀ p ∈ ([(0, 1), (1, 1)] : Sample), p.1 ∈ [0, 1]) ∧
      (∀ u ∈ triBqm.variables, u ∈ [0, 1] → u ∈ keysOf [(0, 1), (1, 1)]) ∧
      (∀ u ∈ triBqm.variables, u ∉ [0, 1] → u ∈ keysOf [(2, 0)])) ∧
    (bqm_reduced_to triBqm [0, 1] [(2, 0)] true).energyVal [(0, 1), (1, 1)]
      = triBqm.energyVal ([(0, 1), (1, 1)] ++ [(2, 0)]) :=
  ⟨⟨by decide, by decide, by decide, by decide⟩,
    C2_bqm_reduced_to_energy_preserving triBqm [0, 1] [(2, 0)] [(0, 1), (1, 1)]
      (by decide) (by decide) (by decide) (by decide)⟩

/-! ### Flip gains: naive versus iterative -/

theorem sample_as_list_range (s : Sample) (n : Nat)
    (hsorted : List.insertionSort (· ≤ ·) (keysOf s) = List.range n) :
    sample_as_list s = some ((List.range n).map (lookupD s)) := by
  unfold sample_as_list
  rw [hsorted]
  cases n with
  | zero => rfl
  | succ m =>
    obtain ⟨i, is, he⟩ : ∃ i is, List.range (m + 1) = i :: is := by
      cases hr : List.range (m + 1) with
      | nil => exact absurd hr (by simp)
      | cons i is => exact ⟨i, is, rfl⟩
    have hi : i = 0 := by
      have h0 := List.range_succ_eq_map m
      rw [he] at h0
      injection h0 with h1 h2
    subst hi
    have hlast : is.getLastD 0 = m := by
      have h2 : (List.range (m + 1)).getLast? = some m := by
        rw [List.getLast?_eq_getLast _ (by simp), List.getLast_range]
        simp
      rw [he, List.getLast?_cons] at h2
      have h3 := Option.some.inj h2
      rw [List.getLastD_eq_getLast?]
      exact h3
    have hlen : ((0 : Nat) :: is).length = m + 1 := by rw [← he]; simp
    rw [he]
    show (if is.getLastD 0 - 0 + 1 ≠ ((0 : Nat) :: is).length then none
      else some (((0 : Nat) :: is).map (lookupD s))) = _
    rw [hlast, hlen, if_neg (by simp)]

theorem mapOpt_eq_some (f : α → Option β) (g : α → β) (l : List α)
    (h : ∀ x ∈ l, f x = some (g x)) : mapOpt f l = some (l.map g) := by
  induction l with
  | nil => rfl
  | cons a l ih =>
    show ((f a).bind fun b => (mapOpt f l).map fun bs => b :: bs) = _
    rw [h a (List.mem_cons_self a l), ih (fun x hx => h x (List.mem_cons_of_mem a hx))]
    rfl

theorem lookup?_enumFromQ (m : List ℚ) : ∀ (j k : Nat),
    lookup? (enumFromQ j m) k = if k < j then none else m[k - j]? := by
  induction m with
  | nil =>
    intro j k
    rw [enumFromQ]
    show none = _
    rw [List.getElem?_nil]
    split <;> rfl
  | cons v l ih =>
    intro j k
    rw [enumFromQ, lookup?_cons]
    by_cases he : j = k
    · rw [if_pos he, if_neg (by omega), show k - j = 0 by omega, List.getElem?_cons_zero]
    · rw [if_neg he, ih (j + 1) k]
      by_cases hlt : k < j
      · rw [if_pos (by omega), if_pos hlt]
      · rw [if_neg (by omega), if_neg hlt,
          show k - j = (k - (j + 1)) + 1 by omega, List.getElem?_cons_succ]

theorem lookupD_ofList (m : List ℚ) (k : Nat) :
    lookupD (sample_as_dict_ofList m) k = (m[k]?).getD 0 := by
  rw [lookupD, sample_as_dict_ofList, lookup?_enumFromQ m 0 k, if_neg (by omega),
    Nat.sub_zero]

theorem mem_enumFromQ (m : List ℚ) : ∀ (j : Nat) (p : Nat × ℚ), p ∈ enumFromQ j m →
    j ≤ p.1 ∧ p.1 - j < m.length ∧ m[p.1 - j]? = some p.2 := by
  induction m with
  | nil => intro j p h; exact absurd h (List.not_mem_nil p)
  | cons v l ih =>
    intro j p h
    rw [enumFromQ] at h
    rcases List.mem_cons.mp h with rfl | h2
    · exact ⟨le_refl _, by simp, by simp⟩
    · obtain ⟨h1, h2l, h3⟩ := ih (j + 1) p h2
      refine ⟨by omega, by simp only [List.length_cons]; omega, ?_⟩
      rw [show p.1 - j = (p.1 - (j + 1)) + 1 by omega, List.getElem?_cons_succ]
      exact h3

theorem keysOf_enumFromQ (m : List ℚ) : ∀ j, keysOf (enumFromQ j m) = List.range' j m.length := by
  induction m with
  | nil => intro j; rfl
  | cons v l ih =>
    intro j
    rw [enumFromQ, keysOf_cons, List.length_cons, List.range'_succ, ih (j + 1)]

theorem flipped_lookup (s : Sample) (n : Nat)
    (hkeysAll : ∀ k, k ∈ keysOf s ↔ k < n)
    (i : Nat) (hi : i < n) (x : ℚ) (u : Nat) :
    lookupD (sample_as_dict_ofList
        (((List.range n).map (lookupD s)).take i
          ++ x :: ((List.range n).map (lookupD s)).drop (i + 1))) u
      = if u = i then x else lookupD s u := by
  have hlstlen : ((List.range n).map (lookupD s)).length = n := by simp
  have hlstget : ∀ k, k < n → ((List.range n).map (lookupD s))[k]? = some (lookupD s k) :=
    fun k hk => by
      rw [List.getElem?_map, List.getElem?_range hk, Option.map_some']
  have htakelen : (((List.range n).map (lookupD s)).take i).length = i := by
    simp [hlstlen]
    omega
  rw [lookupD_ofList]
  by_cases he : u = i
  · subst he
    rw [if_pos rfl]
    rw [List.getElem?_append_right (by omega), htakelen, Nat.sub_self,
      List.getElem?_cons_zero, Option.getD_some]
  · rw [if_neg he]
    by_cases hu : u < n
    · by_cases hlt : u < i
      · rw [List.getElem?_append, htakelen, if_pos hlt, List.getElem?_take, if_pos hlt,
          hlstget u hu, Option.getD_some]
      · have hgt : i < u := by omega
        rw [List.getElem?_append_right (by omega), htakelen,
          show u - i = (u - i - 1) + 1 by omega, List.getElem?_cons_succ,
          List.getElem?_drop, show i + 1 + (u - i - 1) = u by omega,
          hlstget u hu, Option.getD_some]
    · have h1 : (((List.range n).map (lookupD s)).take i
          ++ x :: ((List.range n).map (lookupD s)).drop (i + 1)).length = n := by
        simp [hlstlen]
        omega
      rw [List.getElem?_eq_none (by omega)]
      rw [lookupD_eq_zero s u (fun hm => hu ((hkeysAll u).mp hm))]
      rfl

theorem flipped_energyVal (b : BQM) (s : Sample) (n : Nat) (hwf : b.wf)
    (hvarsAll : ∀ k, k ∈ b.variables ↔ k < n)
    (hkeysAll : ∀ k, k ∈ keysOf s ↔ k < n)
    (i : Nat) (hi : i < n) (x : ℚ) :
    b.energyVal (sample_as_dict_ofList
        (((List.range n).map (lookupD s)).take i
          ++ x :: ((List.range n).map (lookupD s)).drop (i + 1)))
      - b.energyVal s
      = (x - lookupD s i) * contrib b s i := by
  have hflip := energyF_flip b (lookupD s)
    (lookupD (sample_as_dict_ofList
        (((List.range n).map (lookupD s)).take i
          ++ x :: ((List.range n).map (lookupD s)).drop (i + 1)))) i hwf
    ((hvarsAll i).mpr hi)
    (fun u hu => by rw [flipped_lookup s n hkeysAll i hi x u, if_neg hu])
  rw [show b.energyVal (sample_as_dict_ofList _) = energyF b (lookupD
      (sample_as_dict_ofList
        (((List.range n).map (lookupD s)).take i
          ++ x :: ((List.range n).map (lookupD s)).drop (i + 1)))) from rfl]
  rw [show b.energyVal s = energyF b (lookupD s) from rfl]
  rw [hflip, flipped_lookup s n hkeysAll i hi x i, if_pos rfl]
  rfl

theorem map_over_keys {β : Type} (l : List (Nat × ℚ)) (G : Nat → β) :
    l.map (fun p => G p.1) = (keysOf l).map G := by
  rw [keysOf, List.map_map]
  rfl

/-- C1 (amended): on a model whose variables are exactly the labels
0 .. n-1 and a valid assignment over them, the iterative flip-gain list
coincides with the naive whole-energy recomputation. -/
theorem C1_amended_naive_eq_iterative (b : BQM) (s : Sample) (hwf : b.wf)
    (hdom : b.vartype = .BINARY ∨ b.vartype = .SPIN)
    (hnd : (keysOf s).Nodup)
    (hks : ∀ k ∈ keysOf s, k ∈ b.variables)
    (hsk : ∀ k ∈ b.variables, k ∈ keysOf s)
    (hzero : ∀ k ∈ b.variables, k < b.variables.length) :
    flip_energy_gains_naive b s = flip_energy_gains_iterative b s := by
  set n := b.variables.length with hn
  have hvarsAll : ∀ k, k ∈ b.variables ↔ k < n := by
    have hsub : b.variables.toFinset ⊆ Finset.range n := fun k hk =>
      Finset.mem_range.mpr (hzero k (List.mem_toFinset.mp hk))
    have hcard : b.variables.toFinset.card = n := by
      rw [List.toFinset_card_of_nodup hwf.1]
    have heq : b.variables.toFinset = Finset.range n :=
      Finset.eq_of_subset_of_card_le hsub (by rw [hcard, Finset.card_range])
    intro k
    rw [← List.mem_toFinset, heq, Finset.mem_range]
  have hkeysAll : ∀ k, k ∈ keysOf s ↔ k < n := fun k =>
    ⟨fun h => (hvarsAll k).mp (hks k h), fun h => hsk k ((hvarsAll k).mpr h)⟩
  have hperm : (keysOf s).Perm (List.range n) :=
    (List.perm_ext_iff_of_nodup hnd (List.nodup_range n)).mpr
      (fun k => by rw [List.mem_range]; exact hkeysAll k)
  have hsorted : List.insertionSort (· ≤ ·) (keysOf s) = List.range n :=
    List.eq_of_perm_of_sorted ((List.perm_insertionSort _ _).trans hperm)
      (List.sorted_insertionSort _ _) (List.sorted_le_range n)
  obtain ⟨flip, delta, hflip, hdelta, hfd⟩ :
      ∃ fl dl, flipFn b.vartype = some fl ∧ deltaFn b.vartype = some dl ∧
        ∀ x : ℚ, fl x - x = dl x := by
    rcases hdom with h | h
    · exact ⟨fun val => 1 - val, fun val => 1 - 2 * val,
        by rw [h]; rfl, by rw [h]; rfl, fun x => by ring⟩
    · exact ⟨fun val => -val, fun val => -(2 * val),
        by rw [h]; rfl, by rw [h]; rfl, fun x => by ring⟩
  have hbase : b.energy? s = some (b.energyVal s) := by
    unfold BQM.energy?
    rw [if_pos (fun v hv => hsk v hv)]
  have hlst := sample_as_list_range s n hsorted
  have hmap : mapOpt (fun p : Nat × ℚ =>
      (b.energy? (sample_as_dict_ofList
          ((((List.range n).map (lookupD s)).take p.1
            ++ flip p.2 :: ((List.range n).map (lookupD s)).drop (p.1 + 1))))).map
        (fun e => (e - b.energyVal s, p.1)))
      (enumFromQ 0 ((List.range n).map (lookupD s)))
      = some ((enumFromQ 0 ((List.range n).map (lookupD s))).map
          (fun p => (contrib b s p.1 * delta (lookupD s p.1), p.1))) := by
    apply mapOpt_eq_some
    intro p hp
    obtain ⟨hj0, hlt, hget⟩ := mem_enumFromQ _ 0 p hp
    rw [Nat.sub_zero] at hlt hget
    have hlen : ((List.range n).map (lookupD s)).length = n := by simp
    have hp1 : p.1 < n := by omega
    have hp2 : p.2 = lookupD s p.1 := by
      rw [List.getElem?_map, List.getElem?_range hp1, Option.map_some'] at hget
      exact (Option.some.inj hget).symm
    have hlen' : (((List.range n).map (lookupD s)).take p.1
        ++ flip p.2 :: ((List.range n).map (lookupD s)).drop (p.1 + 1)).length = n := by
      simp only [List.length_append, List.length_take, List.length_cons,
        List.length_drop, hlen]
      omega
    have hcov : ∀ v ∈ b.variables, v ∈ keysOf (sample_as_dict_ofList
        (((List.range n).map (lookupD s)).take p.1
          ++ flip p.2 :: ((List.range n).map (lookupD s)).drop (p.1 + 1))) := by
      intro v hv
      rw [sample_as_dict_ofList, keysOf_enumFromQ, hlen', ← List.range_eq_range',
        List.mem_range]
      exact (hvarsAll v).mp hv
    have henergy : b.energy? (sample_as_dict_ofList
        (((List.range n).map (lookupD s)).take p.1
          ++ flip p.2 :: ((List.range n).map (lookupD s)).drop (p.1 + 1)))
        = some (b.energyVal (sample_as_dict_ofList
            (((List.range n).map (lookupD s)).take p.1
              ++ flip p.2 :: ((List.range n).map (lookupD s)).drop (p.1 + 1)))) := by
      unfold BQM.energy?
      rw [if_pos hcov]
    rw [henergy, Option.map_some']
    refine congrArg some ?_
    show (b.energyVal (sample_as_dict_ofList
        (((List.range n).map (lookupD s)).take p.1
          ++ flip p.2 :: ((List.range n).map (lookupD s)).drop (p.1 + 1)))
      - b.energyVal s, p.1) = (contrib b s p.1 * delta (lookupD s p.1), p.1)
    have hE := flipped_energyVal b s n hwf hvarsAll hkeysAll p.1 hp1 (flip p.2)
    rw [hE, hp2, hfd (lookupD s p.1), mul_comm]
  unfold flip_energy_gains_naive flip_energy_gains_iterative
  rw [hflip, hdelta]
  simp only [Option.some_bind, Option.map_some', hbase, hlst]
  rw [hmap]
  simp only [Option.map_some']
  refine congrArg some ?_
  have hIlist : s.map (fun p => (contrib b s p.1 * delta p.2, p.1))
      = s.map (fun p => (contrib b s p.1 * delta (lookupD s p.1), p.1)) :=
    List.map_congr_left (fun p hp => by
      have hl : lookupD s p.1 = p.2 := by
        rw [lookupD, lookup?_mem s p hnd hp]
        rfl
      rw [hl])
  have hkeysenum : keysOf (enumFromQ 0 ((List.range n).map (lookupD s)))
      = List.range n := by
    rw [keysOf_enumFromQ, List.length_map, List.length_range, ← List.range_eq_range']
  have hNmap : (enumFromQ 0 ((List.range n).map (lookupD s))).map
      (fun p => (contrib b s p.1 * delta (lookupD s p.1), p.1))
      = (List.range n).map (fun k => (contrib b s k * delta (lookupD s k), k)) := by
    rw [map_over_keys (enumFromQ 0 ((List.range n).map (lookupD s)))
      (fun k => (contrib b s k * delta (lookupD s k), k)), hkeysenum]
  have hImap : s.map (fun p => (contrib b s p.1 * delta (lookupD s p.1), p.1))
      = (keysOf s).map (fun k => (contrib b s k * delta (lookupD s k), k)) :=
    map_over_keys s (fun k => (contrib b s k * delta (lookupD s k), k))
  rw [hIlist, hNmap, hImap]
  exact List.eq_of_perm_of_sorted
    ((List.perm_insertionSort pairGE _).trans
      (((hperm.map (fun k => (contrib b s k * delta (lookupD s k), k))).symm).trans
        (List.perm_insertionSort pairGE _).symm))
    (List.sorted_insertionSort pairGE _) (List.sorted_insertionSort pairGE _)

/-- C1 counterexample: on the SPIN model with contiguous labels 1, 2 (not
starting at 0) and a valid assignment, the naive form fails, because the
list form of the sample is re-read with 0-based labels, while the iterative
form returns a list, so the two are not equal. -/
theorem C1_counterexample :
    flip_energy_gains_naive cexBqm cexSample = none ∧
    flip_energy_gains_iterative cexBqm cexSample = some [(-2, 2), (-2, 1)] ∧
    flip_energy_gains_naive cexBqm cexSample
      ≠ flip_energy_gains_iterative cexBqm cexSample := by
  have h1 : flip_energy_gains_naive cexBqm cexSample = none := by
    norm_num [flip_energy_gains_naive, flipFn, BQM.energy?, BQM.energyVal, energyF,
      BQM.variables, keysOf, sample_as_list, sample_as_dict_ofList, enumFromQ, mapOpt,
      lookupD, lookup?, cexBqm, cexSample, List.insertionSort, List.orderedInsert]
  have h2 : flip_energy_gains_iterative cexBqm cexSample = some [(-2, 2), (-2, 1)] := by
    norm_num [flip_energy_gains_iterative, deltaFn, contrib, contribF, BQM.adj,
      adjList, lookupD, lookup?, cexBqm, cexSample, List.insertionSort,
      List.orderedInsert, pairGE]
  exact ⟨h1, h2, by rw [h1, h2]; exact Option.noConfusion⟩

/-- Witness for the amended C1 at the docstring SPIN model with labels 0..3. -/
theorem C1_witness :
    (exBqm.wf ∧ (exBqm.vartype = .BINARY ∨ exBqm.vartype = .SPIN) ∧
      (keysOf exSample).Nodup ∧ (∀ k ∈ keysOf exSample, k ∈ exBqm.variables) ∧
      (∀ k ∈ exBqm.variables, k ∈ keysOf exSample) ∧
      (∀ k ∈ exBqm.variables, k < exBqm.variables.length)) ∧
    flip_energy_gains_naive exBqm exSample = flip_energy_gains_iterative exBqm exSample :=
  ⟨⟨by decide, Or.inr rfl, by decide, by decide, by decide, by decide⟩,
    C1_amended_naive_eq_iterative exBqm exSample (by decide) (Or.inr rfl) (by decide)
      (by decide) (by decide) (by decide)⟩

/-! ### Sorting and selection claims -/

theorem flip_gains_sorted (b : BQM) (s : Sample) (l : List (ℚ × Nat))
    (hl : flip_energy_gains b s = some l) : l.Sorted pairGE := by
  unfold flip_energy_gains flip_energy_gains_iterative at hl
  cases hdf : deltaFn b.vartype with
  | none => rw [hdf] at hl; simp at hl
  | some delta =>
    rw [hdf, Option.map_some'] at hl
    rw [← Option.some.inj hl]
    exact List.sorted_insertionSort pairGE _

theorem exGains : flip_energy_gains exBqm exSample
    = some [(4, 3), (2, 2), (0, 0), (-2, 1)] := by
  norm_num [flip_energy_gains, flip_energy_gains_iterative, deltaFn, contrib,
    contribF, BQM.adj, adjList, lookupD, lookup?, exBqm, exSample,
    List.insertionSort, List.orderedInsert, pairGE]

theorem exSelect : select_localsearch_adversaries exBqm exSample (some 3) (some 1)
    = some [3, 2] := by
  norm_num [select_localsearch_adversaries, flip_energy_gains,
    flip_energy_gains_iterative, deltaFn, contrib, contribF, BQM.adj, adjList,
    filterGE, lookupD, lookup?, exBqm, exSample, List.insertionSort,
    List.orderedInsert, pairGE]

theorem filterGE_sublist (g : ℚ) (l : List (ℚ × Nat)) : (filterGE g l).Sublist l := by
  induction l with
  | nil => exact List.Sublist.refl []
  | cons p rest ih =>
    rw [filterGE]
    by_cases h : g ≤ p.1
    · rw [if_pos h]
      exact ih.cons₂ p
    · rw [if_neg h]
      exact ih.cons p

theorem filterGE_ge (g : ℚ) (l : List (ℚ × Nat)) : ∀ p ∈ filterGE g l, g ≤ p.1 := by
  induction l with
  | nil => intro p hp; exact absurd hp (List.not_mem_nil p)
  | cons q rest ih =>
    intro p hp
    rw [filterGE] at hp
    by_cases h : g ≤ q.1
    · rw [if_pos h] at hp
      rcases List.mem_cons.mp hp with rfl | hp2
      · exact h
      · exact ih p hp2
    · rw [if_neg h] at hp
      exact ih p hp

/-- C4: the flip-gain list is sorted descending by gain with the fixed
tie-break of the reverse tuple order, and on the docstring SPIN model with
couplings (a,b)=0, (b,c)=1, (c,d)=2 and sample a=-1, b=1, c=1, d=-1 it is
exactly [(4, d), (2, c), (0, a), (-2, b)] with a..d as 0..3. -/
theorem C4_flip_gains_sorted_with_tie_break :
    (∀ (b : BQM) (s : Sample) (l : List (ℚ × Nat)),
      flip_energy_gains b s = some l → l.Sorted pairGE) ∧
    flip_energy_gains exBqm exSample = some [(4, 3), (2, 2), (0, 0), (-2, 1)] :=
  ⟨flip_gains_sorted, exGains⟩

/-- Witness for C4 at the docstring example. -/
theorem C4_witness :
    flip_energy_gains exBqm exSample = some [(4, 3), (2, 2), (0, 0), (-2, 1)] ∧
    ([(4, 3), (2, 2), (0, 0), (-2, 1)] : List (ℚ × Nat)).Sorted pairGE :=
  ⟨C4_flip_gains_sorted_with_tie_break.2,
    C4_flip_gains_sorted_with_tie_break.1 exBqm exSample _
      C4_flip_gains_sorted_with_tie_break.2⟩

/-- C10: whenever two entries of the flip-gain list carry equal gains, the
one with the larger variable label comes first: the list is strictly
descending in the reverse lexicographic order on (gain, label), so the
output is fully deterministic. -/
theorem C10_equal_gains_order_by_descending_label (b : BQM) (s : Sample)
    (hnd : (keysOf s).Nodup) (l : List (ℚ × Nat))
    (hl : flip_energy_gains b s = some l) :
    l.Pairwise (fun p q => q.1 < p.1 ∨ (q.1 = p.1 ∧ q.2 < p.2)) := by
  have hsorted : l.Sorted pairGE := flip_gains_sorted b s l hl
  unfold flip_energy_gains flip_energy_gains_iterative at hl
  cases hdf : deltaFn b.vartype with
  | none => rw [hdf] at hl; simp at hl
  | some delta =>
    rw [hdf, Option.map_some'] at hl
    have hl2 := Option.some.inj hl
    have hperm := (List.perm_insertionSort pairGE
      (s.map (fun p => (contrib b s p.1 * delta p.2, p.1)))).map Prod.snd
    have hmm : (s.map (fun p => (contrib b s p.1 * delta p.2, p.1))).map Prod.snd
        = keysOf s := by
      rw [List.map_map]
      rfl
    rw [hmm, hl2] at hperm
    have hsnd : (l.map Prod.snd).Nodup := (hperm.nodup_iff).mpr hnd
    have hne : l.Pairwise (fun p q => p.2 ≠ q.2) :=
      (List.pairwise_map.mp hsnd)
    exact (hsorted.and hne).imp (fun hpq => by
      rcases hpq with ⟨hge | ⟨he, hle⟩, hne2⟩
      · exact Or.inl hge
      · exact Or.inr ⟨he, lt_of_le_of_ne hle (fun hc => hne2 hc.symm)⟩)

/-- Witness for C10 at the docstring example. -/
theorem C10_witness :
    ((keysOf exSample).Nodup ∧
      flip_energy_gains exBqm exSample = some [(4, 3), (2, 2), (0, 0), (-2, 1)]) ∧
    ([(4, 3), (2, 2), (0, 0), (-2, 1)] : List (ℚ × Nat)).Pairwise
      (fun p q => q.1 < p.1 ∨ (q.1 = p.1 ∧ q.2 < p.2)) :=
  ⟨⟨by decide, exGains⟩,
    C10_equal_gains_order_by_descending_label exBqm exSample (by decide) _ exGains⟩

/-- C5: select_localsearch_adversaries returns at most max_n variables,
obtained as the labels of a gain-sorted (descending) part of the flip-gain
list all of whose gains reach min_gain; a missing max_n defaults to the
number of assignment entries, a missing min_gain applies no threshold; and
on the docstring SPIN model with max_n=3, min_gain=1 the result is exactly
[d, c], that is [3, 2]. -/
theorem C5_select_localsearch_adversaries :
    (∀ (b : BQM) (s : Sample) (l : List (ℚ × Nat)) (m : Nat) (g : ℚ)
        (vs : List Nat),
      flip_energy_gains b s = some l →
      select_localsearch_adversaries b s (some m) (some g) = some vs →
      vs.length ≤ m ∧ ∃ ps : List (ℚ × Nat), ps.Sublist l ∧ ps.Sorted pairGE ∧
        vs = ps.map Prod.snd ∧ ∀ p ∈ ps, g ≤ p.1) ∧
    (∀ (b : BQM) (s : Sample) (g : Option ℚ),
      select_localsearch_adversaries b s none g
        = select_localsearch_adversaries b s (some s.length) g) ∧
    (∀ (b : BQM) (s : Sample) (l : List (ℚ × Nat)) (m : Nat),
      flip_energy_gains b s = some l →
      select_localsearch_adversaries b s (some m) none
        = some ((l.map Prod.snd).take m)) ∧
    select_localsearch_adversaries exBqm exSample (some 3) (some 1) = some [3, 2] := by
  refine ⟨?_, ?_, ?_, exSelect⟩
  · intro b s l m g vs hl hsel
    have hsorted : l.Sorted pairGE := flip_gains_sorted b s l hl
    unfold select_localsearch_adversaries at hsel
    rw [hl, Option.map_some'] at hsel
    have hv : vs = ((filterGE g l).map Prod.snd).take m := (Option.some.inj hsel).symm
    refine ⟨by rw [hv]; exact (List.length_take_le m _), ⟨(filterGE g l).take m,
      (List.take_sublist m _).trans (filterGE_sublist g l),
      List.Pairwise.sublist ((List.take_sublist m _).trans (filterGE_sublist g l))
        hsorted, ?_, fun p hp => filterGE_ge g l p (List.take_subset m _ hp)⟩⟩
    rw [hv, List.map_take]
  · intro b s g
    rfl
  · intro b s l m hl
    unfold select_localsearch_adversaries
    rw [hl, Option.map_some']
    rfl

/-- Witness for C5 at the docstring example. -/
theorem C5_witness :
    (flip_energy_gains exBqm exSample = some [(4, 3), (2, 2), (0, 0), (-2, 1)] ∧
      select_localsearch_adversaries exBqm exSample (some 3) (some 1) = some [3, 2]) ∧
    (([3, 2] : List Nat).length ≤ 3 ∧ ∃ ps : List (ℚ × Nat),
      ps.Sublist [(4, 3), (2, 2), (0, 0), (-2, 1)] ∧ ps.Sorted pairGE ∧
      ([3, 2] : List Nat) = ps.map Prod.snd ∧ ∀ p ∈ ps, (1 : ℚ) ≤ p.1) :=
  ⟨⟨exGains, exSelect⟩,
    C5_select_localsearch_adversaries.1 exBqm exSample
      [(4, 3), (2, 2), (0, 0), (-2, 1)] 3 1 [3, 2] exGains exSelect⟩

/-! ### Invalid domain and edge reporting -/

/-- C8: on a model whose domain tag is neither BINARY nor SPIN, both forms
of flip_energy_gains fail with the invalid-domain error instead of
returning a result, whatever the assignment. -/
theorem C8_invalid_domain_fails (b : BQM) (s : Sample)
    (h1 : b.vartype ≠ .BINARY) (h2 : b.vartype ≠ .SPIN) :
    flip_energy_gains_naive b s = none ∧ flip_energy_gains_iterative b s = none := by
  have hv : b.vartype = .OTHER := by
    cases hb : b.vartype
    · exact absurd hb h1
    · exact absurd hb h2
    · rfl
  constructor
  · unfold flip_energy_gains_naive
    rw [hv]
    rfl
  · unfold flip_energy_gains_iterative
    rw [hv]
    rfl

/-- Witness for C8 at a one-variable model with an unsupported domain tag. -/
theorem C8_witness :
    (otherBqm.vartype ≠ Vartype.BINARY ∧ otherBqm.vartype ≠ Vartype.SPIN) ∧
    (flip_energy_gains_naive otherBqm [(0, 0)] = none ∧
      flip_energy_gains_iterative otherBqm [(0, 0)] = none) :=
  ⟨⟨by decide, by decide⟩,
    C8_invalid_domain_fails otherBqm [(0, 0)] (by decide) (by decide)⟩

/-- C7: bqm_edges_between_variables returns exactly the quadratic edges with
both endpoints in the subset plus a self-edge for each variable of the
subset, without duplicates and with no endpoint outside the subset. -/
theorem C7_bqm_edges_between_variables (b : BQM) (vars : List Nat) (hwf : b.wf) :
    (∀ q ∈ b.quadratic, q.1.1 ∈ vars → q.1.2 ∈ vars →
      q.1 ∈ bqm_edges_between_variables b vars) ∧
    (∀ v ∈ b.variables, v ∈ vars → (v, v) ∈ bqm_edges_between_variables b vars) ∧
    (bqm_edges_between_variables b vars).Nodup ∧
    (∀ e ∈ bqm_edges_between_variables b vars, e.1 ∈ vars ∧ e.2 ∈ vars) ∧
    (∀ e ∈ bqm_edges_between_variables b vars,
      (∃ j, (e, j) ∈ b.quadratic) ∨ (e.1 = e.2 ∧ e.1 ∈ b.variables)) := by
  unfold bqm_edges_between_variables
  refine ⟨?_, ?_, ?_, ?_, ?_⟩
  · intro q hq h1 h2
    exact List.mem_append_left _ (List.mem_map_of_mem Prod.fst
      (List.mem_filter.mpr ⟨hq, by simp [h1, h2]⟩))
  · intro v hv hvv
    exact List.mem_append_right _ (List.mem_map_of_mem (fun v => (v, v))
      (List.mem_filter.mpr ⟨hv, by simp [hvv]⟩))
  · rw [List.nodup_append]
    refine ⟨?_, ?_, ?_⟩
    · have h1 : (b.quadratic.map Prod.fst).Nodup := by
        have h2 : ((b.quadratic.map Prod.fst).map ukey).Nodup := by
          rw [List.map_map]
          exact hwf.2.2
        exact h2.of_map ukey
      exact h1.sublist ((List.filter_sublist _).map Prod.fst)
    · exact ((hwf.1.filter _).map (fun a b hab => (Prod.mk.injEq _ _ _ _ ▸ hab :
        (a = b ∧ a = b)).1))
    · intro e he hce
      obtain ⟨q, hq, rfl⟩ := List.mem_map.mp he
      obtain ⟨v, hv, hve⟩ := List.mem_map.mp hce
      have hne := (hwf.2.1 q (List.mem_of_mem_filter hq)).1
      rw [← hve] at hne
      exact hne rfl
  · intro e he
    rcases List.mem_append.mp he with h | h
    · obtain ⟨q, hq, rfl⟩ := List.mem_map.mp h
      have := List.of_mem_filter hq
      simpa using this
    · obtain ⟨v, hv, rfl⟩ := List.mem_map.mp h
      have := List.of_mem_filter hv
      simp only [decide_eq_true_eq] at this
      exact ⟨this, this⟩
  · intro e he
    rcases List.mem_append.mp he with h | h
    · obtain ⟨q, hq, rfl⟩ := List.mem_map.mp h
      exact Or.inl ⟨q.2, List.mem_of_mem_filter hq⟩
    · obtain ⟨v, hv, rfl⟩ := List.mem_map.mp h
      exact Or.inr ⟨rfl, List.mem_of_mem_filter hv⟩

/-- Witness for C7 at the path-graph docstring example: variables 0, 1, 3 of
the 4-variable path. -/
theorem C7_witness :
    (exBqm.wf ∧
      bqm_edges_between_variables exBqm [0, 1, 3] = [(0, 1), (0, 0), (1, 1), (3, 3)]) ∧
    (bqm_edges_between_variables exBqm [0, 1, 3]).Nodup :=
  ⟨⟨by decide, by decide⟩,
    (C7_bqm_edges_between_variables exBqm [0, 1, 3] (by decide)).2.2.1⟩

/-! ### Random subgraph selection -/

theorem draw_spec (g : Nat → Nat) : ∀ (k step : Nat) (pop : List Nat),
    k ≤ pop.length → pop.Nodup →
    (draw g k step pop).length = k ∧ (draw g k step pop).Nodup ∧
      ∀ v ∈ draw g k step pop, v ∈ pop := by
  intro k
  induction k with
  | zero =>
    intro step pop _ _
    exact ⟨rfl, List.nodup_nil, fun v hv => absurd hv (List.not_mem_nil v)⟩
  | succ k ih =>
    intro step pop hk hnd
    have hne : ¬pop.length = 0 := by omega
    rw [draw, dif_neg hne]
    have hidx : g step % pop.length < pop.length :=
      Nat.mod_lt _ (Nat.pos_of_ne_zero hne)
    set x := pop.get ⟨g step % pop.length, hidx⟩ with hx
    have hxm : x ∈ pop := List.get_mem pop _ hidx
    have herase : (pop.erase x).length = pop.length - 1 :=
      List.length_erase_of_mem hxm
    have hrec := ih (step + 1) (pop.erase x) (by omega) (hnd.erase x)
    refine ⟨?_, ?_, ?_⟩
    · rw [List.length_cons, hrec.1]
    · rw [List.nodup_cons]
      exact ⟨fun hc => hnd.not_mem_erase (hrec.2.2 x hc), hrec.2.1⟩
    · intro v hv
      rcases List.mem_cons.mp hv with rfl | hv2
      · exact hxm
      · exact List.erase_subset x pop (hrec.2.2 v hv2)

/-- C9: select_random_subgraph fails with the out-of-range error whenever
the requested size is negative or exceeds the variable count, and otherwise
returns exactly that many distinct variables of the model, drawn without
replacement. -/
theorem C9_select_random_subgraph (b : BQM) (g : Nat → Nat) (n : Int)
    (hwf : b.wf) :
    ((n < 0 ∨ (b.variables.length : Int) < n) → select_random_subgraph b g n = none) ∧
    (0 ≤ n → n ≤ (b.variables.length : Int) →
      ∃ l, select_random_subgraph b g n = some l ∧ l.length = n.toNat ∧
        l.Nodup ∧ ∀ v ∈ l, v ∈ b.variables) := by
  constructor
  · intro h
    unfold select_random_subgraph
    rw [if_pos h]
  · intro h0 hle
    have hcond : ¬(n < 0 ∨ (b.variables.length : Int) < n) := by omega
    have hk : n.toNat ≤ b.variables.length := by omega
    obtain ⟨h1, h2, h3⟩ := draw_spec g n.toNat 0 b.variables hk hwf.1
    refine ⟨draw g n.toNat 0 b.variables, ?_, h1, h2, h3⟩
    unfold select_random_subgraph
    rw [if_neg hcond]

/-- Witness for C9 on the 4-variable docstring model: size 7 is rejected,
size 2 yields two distinct variables. -/
theorem C9_witness :
    (exBqm.wf ∧ ((7 : Int) < 0 ∨ (exBqm.variables.length : Int) < 7) ∧
      (0 : Int) ≤ 2 ∧ (2 : Int) ≤ (exBqm.variables.length : Int)) ∧
    (select_random_subgraph exBqm (fun _ => 0) 7 = none ∧
      ∃ l, select_random_subgraph exBqm (fun _ => 0) 2 = some l ∧
        l.length = (2 : Int).toNat ∧ l.Nodup ∧ ∀ v ∈ l, v ∈ exBqm.variables) :=
  ⟨⟨by decide, by decide, by decide, by decide⟩,
    (C9_select_random_subgraph exBqm (fun _ => 0) 7 (by decide)).1 (by decide),
    (C9_select_random_subgraph exBqm (fun _ => 0) 2 (by decide)).2 (by decide)
      (by decide)⟩

/-! ### Sample list and dict conversions -/

/-- C6 counterexample: the assignment with contiguous labels 1, 2 converts
to the list [5, 7], but converting that list back to a dict re-bases the
labels at 0, so the round trip does not return the original assignment. -/
theorem C6_counterexample :
    sample_as_list [(1, 5), (2, 7)] = some [5, 7] ∧
    lookup? (sample_as_dict_ofList [5, 7]) 2 = none ∧
    lookup? [(1, 5), (2, 7)] 2 = some 7 := by
  refine ⟨by decide, by decide, by decide⟩

theorem sorted_le_getLastD : ∀ (l : List Nat) (a : Nat),
    (a :: l).Sorted (· ≤ ·) → ∀ k ∈ a :: l, k ≤ l.getLastD a := by
  intro l
  induction l with
  | nil =>
    intro a _ k hk
    rw [List.getLastD_nil]
    rcases List.mem_cons.mp hk with rfl | hk2
    · exact le_refl k
    · exact absurd hk2 (List.not_mem_nil k)
  | cons b t ih =>
    intro a hs k hk
    rw [List.getLastD_cons]
    have hs2 : (b :: t).Sorted (· ≤ ·) := (List.sorted_cons.mp hs).2
    rcases List.mem_cons.mp hk with rfl | hk2
    · exact le_trans ((List.sorted_cons.mp hs).1 b (List.mem_cons_self b t))
        (ih b hs2 b (List.mem_cons_self b t))
    · exact ih b hs2 k hk2

/-- C6 (amended): for an assignment with distinct labels that are exactly
0 .. n-1, converting to a list and back to a dict returns the same dict;
and for an assignment with distinct labels containing a gap, the conversion
to a list fails with the incomplete-assignment error. -/
theorem C6_amended_roundtrip_and_gap :
    (∀ (a : Sample), (keysOf a).Nodup → (∀ k, k ∈ keysOf a ↔ k < a.length) →
      ∃ l, sample_as_list a = some l ∧
        ∀ k, lookup? (sample_as_dict_ofList l) k = lookup? a k) ∧
    (∀ (a : Sample) (x y z : Nat), (keysOf a).Nodup →
      x ∈ keysOf a → y ∈ keysOf a → x < z → z < y → z ∉ keysOf a →
      sample_as_list a = none) := by
  constructor
  · intro a hnd hall
    have hlen : (keysOf a).length = a.length := by
      rw [keysOf, List.length_map]
    have hperm : (keysOf a).Perm (List.range a.length) :=
      (List.perm_ext_iff_of_nodup hnd (List.nodup_range _)).mpr
        (fun k => by rw [List.mem_range]; exact hall k)
    have hsorted : List.insertionSort (· ≤ ·) (keysOf a) = List.range a.length :=
      List.eq_of_perm_of_sorted ((List.perm_insertionSort _ _).trans hperm)
        (List.sorted_insertionSort _ _) (List.sorted_le_range _)
    refine ⟨(List.range a.length).map (lookupD a),
      sample_as_list_range a a.length hsorted, ?_⟩
    intro k
    rw [sample_as_dict_ofList, lookup?_enumFromQ _ 0 k, if_neg (by omega),
      Nat.sub_zero, List.getElem?_map]
    by_cases hk : k < a.length
    · rw [List.getElem?_range hk, Option.map_some']
      have hkm : k ∈ keysOf a := (hall k).mpr hk
      obtain ⟨p, hp, hpe⟩ := List.mem_map.mp hkm
      have := lookup?_mem a p hnd hp
      rw [hpe] at this
      rw [this, lookupD, this]
      rfl
    · rw [List.getElem?_eq_none (by simp; omega), Option.map_none']
      exact (lookup?_eq_none a k (fun hm => hk ((hall k).mp hm))).symm
  · intro a x y z hnd hx hy hxz hzy hz
    cases hsrt : List.insertionSort (· ≤ ·) (keysOf a) with
    | nil =>
      have : x ∈ List.insertionSort (· ≤ ·) (keysOf a) := by
        rw [List.mem_insertionSort]
        exact hx
      rw [hsrt] at this
      exact absurd this (List.not_mem_nil x)
    | cons i is =>
      have hperm : (List.insertionSort (· ≤ ·) (keysOf a)).Perm (keysOf a) :=
        List.perm_insertionSort _ _
      have hmemiff : ∀ k, k ∈ i :: is ↔ k ∈ keysOf a := by
        intro k
        rw [← hsrt]
        exact (hperm.mem_iff)
      have hsorted : (i :: is).Sorted (· ≤ ·) := by
        rw [← hsrt]
        exact List.sorted_insertionSort _ _
      have hlow : ∀ k ∈ keysOf a, i ≤ k := by
        intro k hk
        rcases List.mem_cons.mp ((hmemiff k).mpr hk) with rfl | hk2
        · exact le_refl k
        · exact (List.sorted_cons.mp hsorted).1 k hk2
      have hhigh : ∀ k ∈ keysOf a, k ≤ is.getLastD i :=
        fun k hk => sorted_le_getLastD is i hsorted k ((hmemiff k).mpr hk)
      have hiz : i < z := lt_of_le_of_lt (hlow x hx) hxz
      have hzl : z < is.getLastD i := lt_of_lt_of_le hzy (hhigh y hy)
      have hsub : (keysOf a).toFinset ⊆ (Finset.Icc i (is.getLastD i)).erase z := by
        intro k hk
        have hk2 := List.mem_toFinset.mp hk
        exact Finset.mem_erase.mpr ⟨fun he => hz (he ▸ hk2),
          Finset.mem_Icc.mpr ⟨hlow k hk2, hhigh k hk2⟩⟩
      have hcard1 : (keysOf a).toFinset.card = (keysOf a).length :=
        List.toFinset_card_of_nodup hnd
      have hcard2 : ((Finset.Icc i (is.getLastD i)).erase z).card
          = (is.getLastD i + 1 - i) - 1 := by
        rw [Finset.card_erase_of_mem (Finset.mem_Icc.mpr ⟨le_of_lt hiz, le_of_lt hzl⟩),
          Nat.card_Icc]
      have hlen2 : (keysOf a).length = (i :: is).length := by
        rw [← hsrt]
        exact hperm.length_eq.symm
      have hcardle := Finset.card_le_card hsub
      rw [hcard1, hcard2, hlen2] at hcardle
      unfold sample_as_list
      rw [hsrt]
      show (if is.getLastD i - i + 1 ≠ (i :: is).length then none else _) = none
      rw [if_pos (by omega)]

/-- Witness for the amended C6 at a two-entry assignment with labels 0, 1. -/
theorem C6_witness :
    ((keysOf [(0, 5), (1, 7)]).Nodup ∧
      (∀ k, k ∈ keysOf [(0, 5), (1, 7)] ↔ k < ([(0, 5), (1, 7)] : Sample).length)) ∧
    (∃ l, sample_as_list [(0, 5), (1, 7)] = some l ∧
      ∀ k, lookup? (sample_as_dict_ofList l) k = lookup? [(0, 5), (1, 7)] k) :=
  ⟨⟨by decide, fun k => by simp [keysOf]; omega⟩,
    C6_amended_roundtrip_and_gap.1 [(0, 5), (1, 7)] (by decide)
      (fun k => by simp [keysOf]; omega)⟩

/-! ### Induced subgraph (C3) -/

theorem ukey_eq_iff (p q : Nat × Nat) :
    ukey p = ukey q ↔ (p = q ∨ p = (q.2, q.1)) := by
  rcases p with ⟨a, b⟩
  rcases q with ⟨x, y⟩
  unfold ukey
  split <;> split <;> (simp only [Prod.mk.injEq]; omega)

theorem ukey_swap (x y : Nat) : ukey (y, x) = ukey (x, y) := by
  unfold ukey
  split <;> split <;> first
    | rfl
    | (apply Prod.ext <;> (simp only [] at *; omega))

theorem filter_congr_q {α : Type} {p q : α → Bool} :
    ∀ l : List α, (∀ a ∈ l, p a = q a) → l.filter p = l.filter q := by
  intro l
  induction l with
  | nil => intro _; rfl
  | cons a rest ih =>
    intro h
    rw [List.filter_cons, List.filter_cons, h a (List.mem_cons_self a rest),
      ih (fun x hx => h x (List.mem_cons_of_mem a hx))]

theorem sum_map_div (l : List α) (f : α → ℚ) (c : ℚ) :
    (l.map (fun a => f a / c)).sum = (l.map f).sum / c := by
  induction l with
  | nil => simp
  | cons a l ih => simp [ih]; ring

theorem sum_two [DecidableEq α] (x y : α) (f : α → ℚ) (hxy : x ≠ y) :
    ∀ l : List α, l.Nodup → x ∈ l → y ∈ l →
      (∀ u ∈ l, u ≠ x → u ≠ y → f u = 0) →
      (l.map f).sum = f x + f y := by
  intro l
  induction l with
  | nil => intro _ hx _ _; exact absurd hx (List.not_mem_nil x)
  | cons a rest ih =>
    intro hnd hx hy hz
    have hnd2 := List.nodup_cons.mp hnd
    rw [List.map_cons, List.sum_cons]
    rcases List.mem_cons.mp hx with rfl | hx2
    · have hy2 : y ∈ rest := by
        rcases List.mem_cons.mp hy with h | h
        · exact absurd h.symm hxy
        · exact h
      rw [sum_single rest y f hnd2.2 hy2
        (fun u hu huy => hz u (List.mem_cons_of_mem _ hu)
          (fun hux => hnd2.1 (by rw [← hux]; exact hu)) huy)]
    · rcases List.mem_cons.mp hy with rfl | hy2
      · rw [sum_single rest x f hnd2.2 hx2
          (fun u hu hux => hz u (List.mem_cons_of_mem _ hu) hux
            (fun huy => hnd2.1 (by rw [← huy]; exact hu)))]
        ring
      · rw [hz a (List.mem_cons_self a rest)
            (fun h => hnd2.1 (by rw [h]; exact hx2))
            (fun h => hnd2.1 (by rw [h]; exact hy2)),
          ih hnd2.2 hx2 hy2 (fun u hu => hz u (List.mem_cons_of_mem _ hu))]
        ring

theorem linSum_nil (u : Nat) : linSum [] u = 0 := rfl

theorem linSum_cons (p : Nat × ℚ) (l : List (Nat × ℚ)) (u : Nat) :
    linSum (p :: l) u = (if p.1 = u then p.2 else 0) + linSum l u := by
  unfold linSum
  by_cases h : p.1 = u
  · have hc : decide (p.1 = u) = true := by simp [h]
    rw [List.filter_cons, if_pos hc, List.map_cons, List.sum_cons, if_pos h]
  · have hc : ¬(decide (p.1 = u) = true) := by simp [h]
    rw [List.filter_cons, if_neg hc, if_neg h]
    exact (zero_add _).symm

theorem linSum_append (l t : List (Nat × ℚ)) (u : Nat) :
    linSum (l ++ t) u = linSum l u + linSum t u := by
  unfold linSum
  rw [List.filter_append, List.map_append, List.sum_append]

theorem linSum_bumpLin (l : List (Nat × ℚ)) (u : Nat) (h : ℚ) (w : Nat) :
    linSum (bumpLin l u h) w = linSum l w + (if u = w then h else 0) := by
  induction l with
  | nil =>
    simp only [bumpLin]
    rw [linSum_cons, linSum_nil]
    show (if u = w then h else 0) + 0 = 0 + if u = w then h else 0
    ring
  | cons p rest ih =>
    by_cases hpu : p.1 = u
    · simp only [bumpLin]
      rw [if_pos hpu, linSum_cons, linSum_cons, hpu]
      by_cases huw : u = w
      · rw [if_pos huw, if_pos huw, if_pos huw]; ring
      · rw [if_neg huw, if_neg huw, if_neg huw]; ring
    · simp only [bumpLin]
      rw [if_neg hpu, linSum_cons, linSum_cons, ih]
      ring

theorem linSum_ensureVar (l : List (Nat × ℚ)) (u w : Nat) :
    linSum (ensureVar l u) w = linSum l w := by
  unfold ensureVar
  by_cases h : u ∈ l.map Prod.fst
  · rw [if_pos h]
  · rw [if_neg h, linSum_append, linSum_cons, linSum_nil]
    simp

theorem keysOf_bumpLin (l : List (Nat × ℚ)) (u : Nat) (h : ℚ) (w : Nat) :
    w ∈ keysOf (bumpLin l u h) ↔ w ∈ keysOf l ∨ w = u := by
  induction l with
  | nil => simp [bumpLin, keysOf]
  | cons p rest ih =>
    by_cases hpu : p.1 = u
    · simp only [bumpLin]
      rw [if_pos hpu, keysOf_cons, keysOf_cons]
      simp only [List.mem_cons]
      constructor
      · exact Or.inl
      · rintro (h1 | rfl)
        · exact h1
        · exact Or.inl hpu.symm
    · simp only [bumpLin]
      rw [if_neg hpu, keysOf_cons, keysOf_cons]
      simp only [List.mem_cons, ih]
      tauto

theorem keysOf_ensureVar (l : List (Nat × ℚ)) (u w : Nat) :
    w ∈ keysOf (ensureVar l u) ↔ w ∈ keysOf l ∨ w = u := by
  unfold ensureVar
  by_cases h : u ∈ l.map Prod.fst
  · rw [if_pos h]
    constructor
    · exact Or.inl
    · rintro (h1 | rfl)
      · exact h1
      · exact h
  · rw [if_neg h, keysOf_append]
    simp [keysOf]

theorem quadSum_nil (k : Nat × Nat) : quadSum [] k = 0 := rfl

theorem quadSum_cons (q : (Nat × Nat) × ℚ) (Q : List ((Nat × Nat) × ℚ)) (k : Nat × Nat) :
    quadSum (q :: Q) k = (if ukey q.1 = ukey k then q.2 else 0) + quadSum Q k := by
  unfold quadSum
  by_cases h : ukey q.1 = ukey k
  · have hc : decide (ukey q.1 = ukey k) = true := by simp [h]
    rw [List.filter_cons, if_pos hc, List.map_cons, List.sum_cons, if_pos h]
  · have hc : ¬(decide (ukey q.1 = ukey k) = true) := by simp [h]
    rw [List.filter_cons, if_neg hc, if_neg h]
    exact (zero_add _).symm

theorem quadSum_bumpQuad (Q : List ((Nat × Nat) × ℚ)) (key : Nat × Nat) (j : ℚ)
    (k : Nat × Nat) :
    quadSum (bumpQuad Q key j) k
      = quadSum Q k + (if ukey key = ukey k then j else 0) := by
  induction Q with
  | nil =>
    simp only [bumpQuad]
    rw [quadSum_cons, quadSum_nil]
    show (if ukey key = ukey k then j else 0) + 0
      = 0 + if ukey key = ukey k then j else 0
    ring
  | cons q rest ih =>
    by_cases hq : ukey q.1 = ukey key
    · simp only [bumpQuad]
      rw [if_pos hq, quadSum_cons, quadSum_cons]
      by_cases hk : ukey q.1 = ukey k
      · rw [if_pos hk, if_pos hk, if_pos (hq.symm.trans hk)]
        ring
      · rw [if_neg hk, if_neg hk, if_neg (fun hc => hk (hq.trans hc))]
        ring
    · simp only [bumpQuad]
      rw [if_neg hq, quadSum_cons, quadSum_cons, ih]
      ring

theorem quadSum_swap (Q : List ((Nat × Nat) × ℚ)) (x y : Nat) :
    quadSum Q (y, x) = quadSum Q (x, y) := by
  simp only [quadSum, ukey_swap]

theorem innerF_snd (b : BQM) (vars : List Nat) (fv : Sample) (u : Nat) :
    ∀ L : List (Nat × ℚ), ∀ (acc : BQM) (c : ℚ),
    (L.foldl (innerF b vars fv u) (acc, c)).2
      = c + ((L.filter (fun vj => vj.1 ∉ vars)).map
          (fun vj => vj.2 * lookupD fv vj.1)).sum := by
  intro L
  induction L with
  | nil => intro acc c; simp
  | cons vj rest ih =>
    intro acc c
    rw [List.foldl_cons]
    by_cases hm : vj.1 ∈ vars
    · rw [show innerF b vars fv u (acc, c) vj
          = (addInteraction acc u vj.1 (vj.2 / 2), c) from by
        unfold innerF; rw [if_pos hm]]
      rw [ih, List.filter_cons]
      have hc : ¬(decide (vj.1 ∉ vars) = true) := by simp [hm]
      rw [if_neg hc]
    · rw [show innerF b vars fv u (acc, c) vj
          = (acc, c + vj.2 * lookupD fv vj.1) from by
        unfold innerF; rw [if_neg hm]]
      rw [ih, List.filter_cons]
      have hc : decide (vj.1 ∉ vars) = true := by simp [hm]
      rw [if_pos hc]
      simp only [List.map_cons, List.sum_cons]
      ring

theorem innerF_quadSum (b : BQM) (vars : List Nat) (fv : Sample) (u : Nat)
    (k : Nat × Nat) :
    ∀ L : List (Nat × ℚ), ∀ (acc : BQM) (c : ℚ),
    quadSum ((L.foldl (innerF b vars fv u) (acc, c)).1.quadratic) k
      = quadSum acc.quadratic k
        + ((L.filter (fun vj => vj.1 ∈ vars ∧ ukey (u, vj.1) = ukey k)).map
            (fun vj => vj.2 / 2)).sum := by
  intro L
  induction L with
  | nil => intro acc c; simp
  | cons vj rest ih =>
    intro acc c
    rw [List.foldl_cons]
    by_cases hm : vj.1 ∈ vars
    · rw [show innerF b vars fv u (acc, c) vj
          = (addInteraction acc u vj.1 (vj.2 / 2), c) from by
        unfold innerF; rw [if_pos hm]]
      rw [ih]
      rw [show (addInteraction acc u vj.1 (vj.2 / 2)).quadratic
          = bumpQuad acc.quadratic (u, vj.1) (vj.2 / 2) from rfl]
      rw [quadSum_bumpQuad, List.filter_cons]
      by_cases hk : ukey (u, vj.1) = ukey k
      · have hc : decide (vj.1 ∈ vars ∧ ukey (u, vj.1) = ukey k) = true := by
          simp [hm, hk]
        rw [if_pos hc]
        simp only [List.map_cons, List.sum_cons]
        rw [if_pos hk]
        ring
      · have hc : ¬(decide (vj.1 ∈ vars ∧ ukey (u, vj.1) = ukey k) = true) := by
          simp [hk]
        rw [if_neg hc, if_neg hk]
        ring
    · rw [show innerF b vars fv u (acc, c) vj
          = (acc, c + vj.2 * lookupD fv vj.1) from by
        unfold innerF; rw [if_neg hm]]
      rw [ih, List.filter_cons]
      have hc : ¬(decide (vj.1 ∈ vars ∧ ukey (u, vj.1) = ukey k) = true) := by
        simp [hm]
      rw [if_neg hc]

theorem innerF_linSum (b : BQM) (vars : List Nat) (fv : Sample) (u w : Nat) :
    ∀ L : List (Nat × ℚ), ∀ (acc : BQM) (c : ℚ),
    linSum ((L.foldl (innerF b vars fv u) (acc, c)).1.linear) w
      = linSum acc.linear w := by
  intro L
  induction L with
  | nil => intro acc c; rfl
  | cons vj rest ih =>
    intro acc c
    rw [List.foldl_cons]
    by_cases hm : vj.1 ∈ vars
    · rw [show innerF b vars fv u (acc, c) vj
          = (addInteraction acc u vj.1 (vj.2 / 2), c) from by
        unfold innerF; rw [if_pos hm]]
      rw [ih]
      rw [show (addInteraction acc u vj.1 (vj.2 / 2)).linear
          = ensureVar (ensureVar acc.linear u) vj.1 from rfl]
      rw [linSum_ensureVar, linSum_ensureVar]
    · rw [show innerF b vars fv u (acc, c) vj
          = (acc, c + vj.2 * lookupD fv vj.1) from by
        unfold innerF; rw [if_neg hm]]
      rw [ih]

theorem innerF_keys_sub (b : BQM) (vars : List Nat) (fv : Sample) (u w : Nat) :
    ∀ L : List (Nat × ℚ), ∀ (acc : BQM) (c : ℚ),
    w ∈ keysOf ((L.foldl (innerF b vars fv u) (acc, c)).1.linear)
      → w ∈ keysOf acc.linear ∨ w = u ∨ w ∈ vars := by
  intro L
  induction L with
  | nil => intro acc c h; exact Or.inl h
  | cons vj rest ih =>
    intro acc c h
    rw [List.foldl_cons] at h
    by_cases hm : vj.1 ∈ vars
    · rw [show innerF b vars fv u (acc, c) vj
          = (addInteraction acc u vj.1 (vj.2 / 2), c) from by
        unfold innerF; rw [if_pos hm]] at h
      rcases ih _ _ h with h1 | h1
      · rw [show (addInteraction acc u vj.1 (vj.2 / 2)).linear
            = ensureVar (ensureVar acc.linear u) vj.1 from rfl] at h1
        rcases (keysOf_ensureVar _ _ _).mp h1 with h2 | h2
        · rcases (keysOf_ensureVar _ _ _).mp h2 with h3 | h3
          · exact Or.inl h3
          · exact Or.inr (Or.inl h3)
        · exact Or.inr (Or.inr (by rw [h2]; exact hm))
      · exact Or.inr h1
    · rw [show innerF b vars fv u (acc, c) vj
          = (acc, c + vj.2 * lookupD fv vj.1) from by
        unfold innerF; rw [if_neg hm]] at h
      exact ih _ _ h

theorem innerF_keys_mono (b : BQM) (vars : List Nat) (fv : Sample) (u w : Nat) :
    ∀ L : List (Nat × ℚ), ∀ (acc : BQM) (c : ℚ),
    w ∈ keysOf acc.linear
      → w ∈ keysOf ((L.foldl (innerF b vars fv u) (acc, c)).1.linear) := by
  intro L
  induction L with
  | nil => intro acc c h; exact h
  | cons vj rest ih =>
    intro acc c h
    rw [List.foldl_cons]
    by_cases hm : vj.1 ∈ vars
    · rw [show innerF b vars fv u (acc, c) vj
          = (addInteraction acc u vj.1 (vj.2 / 2), c) from by
        unfold innerF; rw [if_pos hm]]
      apply ih
      rw [show (addInteraction acc u vj.1 (vj.2 / 2)).linear
          = ensureVar (ensureVar acc.linear u) vj.1 from rfl]
      exact (keysOf_ensureVar _ _ _).mpr
        (Or.inl ((keysOf_ensureVar _ _ _).mpr (Or.inl h)))
    · rw [show innerF b vars fv u (acc, c) vj
          = (acc, c + vj.2 * lookupD fv vj.1) from by
        unfold innerF; rw [if_neg hm]]
      exact ih _ _ h

theorem inducedStep_linear (b : BQM) (vars : List Nat) (fv : Sample)
    (acc : BQM) (u : Nat) :
    (inducedStep b vars fv acc u).linear
      = bumpLin ((b.adj u).foldl (innerF b vars fv u)
            (acc, lookupD b.linear u)).1.linear u
          ((b.adj u).foldl (innerF b vars fv u) (acc, lookupD b.linear u)).2 := rfl

theorem inducedStep_quadratic (b : BQM) (vars : List Nat) (fv : Sample)
    (acc : BQM) (u : Nat) :
    (inducedStep b vars fv acc u).quadratic
      = ((b.adj u).foldl (innerF b vars fv u) (acc, lookupD b.linear u)).1.quadratic :=
  rfl

theorem inducedStep_linSum (b : BQM) (vars : List Nat) (fv : Sample)
    (acc : BQM) (u w : Nat) :
    linSum (inducedStep b vars fv acc u).linear w
      = linSum acc.linear w
        + (if u = w then lookupD b.linear u
            + (((b.adj u).filter (fun vj => vj.1 ∉ vars)).map
                (fun vj => vj.2 * lookupD fv vj.1)).sum
           else 0) := by
  rw [inducedStep_linear, linSum_bumpLin, innerF_linSum, innerF_snd]

theorem inducedStep_quadSum (b : BQM) (vars : List Nat) (fv : Sample)
    (acc : BQM) (u : Nat) (k : Nat × Nat) :
    quadSum (inducedStep b vars fv acc u).quadratic k
      = quadSum acc.quadratic k
        + (((b.adj u).filter (fun vj => vj.1 ∈ vars ∧ ukey (u, vj.1) = ukey k)).map
            (fun vj => vj.2 / 2)).sum := by
  rw [inducedStep_quadratic, innerF_quadSum]

theorem inducedStep_keys_sub (b : BQM) (vars : List Nat) (fv : Sample)
    (acc : BQM) (u w : Nat)
    (h : w ∈ keysOf (inducedStep b vars fv acc u).linear) :
    w ∈ keysOf acc.linear ∨ w = u ∨ w ∈ vars := by
  rw [inducedStep_linear] at h
  rcases (keysOf_bumpLin _ _ _ _).mp h with h1 | h1
  · exact innerF_keys_sub b vars fv u w (b.adj u) acc _ h1
  · exact Or.inr (Or.inl h1)

theorem inducedStep_keys_self (b : BQM) (vars : List Nat) (fv : Sample)
    (acc : BQM) (u : Nat) :
    u ∈ keysOf (inducedStep b vars fv acc u).linear := by
  rw [inducedStep_linear]
  exact (keysOf_bumpLin _ _ _ _).mpr (Or.inr rfl)

theorem inducedStep_keys_mono (b : BQM) (vars : List Nat) (fv : Sample)
    (acc : BQM) (u w : Nat) (h : w ∈ keysOf acc.linear) :
    w ∈ keysOf (inducedStep b vars fv acc u).linear := by
  rw [inducedStep_linear]
  exact (keysOf_bumpLin _ _ _ _).mpr
    (Or.inl (innerF_keys_mono b vars fv u w (b.adj u) acc _ h))

theorem induced_fold_linSum (b : BQM) (vars : List Nat) (fv : Sample) :
    ∀ L : List Nat, L.Nodup → ∀ (acc : BQM) (w : Nat),
    linSum ((L.foldl (inducedStep b vars fv) acc).linear) w
      = linSum acc.linear w
        + (if w ∈ L then lookupD b.linear w
            + (((b.adj w).filter (fun vj => vj.1 ∉ vars)).map
                (fun vj => vj.2 * lookupD fv vj.1)).sum
           else 0) := by
  intro L
  induction L with
  | nil => intro _ acc w; simp
  | cons u rest ih =>
    intro hnd acc w
    have hnd2 := List.nodup_cons.mp hnd
    rw [List.foldl_cons, ih hnd2.2, inducedStep_linSum]
    by_cases hw : w = u
    · subst hw
      rw [if_pos rfl, if_neg hnd2.1, if_pos (List.mem_cons_self w rest)]
      ring
    · rw [if_neg (fun hc => hw hc.symm)]
      by_cases hr : w ∈ rest
      · rw [if_pos hr, if_pos (List.mem_cons_of_mem u hr)]
        ring
      · rw [if_neg hr, if_neg (fun hc => (List.mem_cons.mp hc).elim hw hr)]
        ring

theorem induced_fold_quadSum (b : BQM) (vars : List Nat) (fv : Sample)
    (k : Nat × Nat) :
    ∀ L : List Nat, ∀ acc : BQM,
    quadSum ((L.foldl (inducedStep b vars fv) acc).quadratic) k
      = quadSum acc.quadratic k
        + (L.map (fun u =>
            (((b.adj u).filter
                (fun vj => vj.1 ∈ vars ∧ ukey (u, vj.1) = ukey k)).map
              (fun vj => vj.2 / 2)).sum)).sum := by
  intro L
  induction L with
  | nil => intro acc; simp
  | cons u rest ih =>
    intro acc
    rw [List.foldl_cons, ih, inducedStep_quadSum]
    simp only [List.map_cons, List.sum_cons]
    ring

theorem induced_fold_keys_mono (b : BQM) (vars : List Nat) (fv : Sample) :
    ∀ L : List Nat, ∀ (acc : BQM) (w : Nat), w ∈ keysOf acc.linear →
    w ∈ keysOf ((L.foldl (inducedStep b vars fv) acc).linear) := by
  intro L
  induction L with
  | nil => intro acc w h; exact h
  | cons u rest ih =>
    intro acc w h
    rw [List.foldl_cons]
    exact ih _ w (inducedStep_keys_mono b vars fv acc u w h)

theorem induced_fold_keys_mem (b : BQM) (vars : List Nat) (fv : Sample) :
    ∀ L : List Nat, ∀ (acc : BQM) (w : Nat), w ∈ L →
    w ∈ keysOf ((L.foldl (inducedStep b vars fv) acc).linear) := by
  intro L
  induction L with
  | nil => intro acc w h; exact absurd h (List.not_mem_nil w)
  | cons u rest ih =>
    intro acc w h
    rw [List.foldl_cons]
    rcases List.mem_cons.mp h with rfl | h2
    · exact induced_fold_keys_mono b vars fv rest _ w
        (inducedStep_keys_self b vars fv acc w)
    · exact ih _ w h2

theorem induced_fold_keys_sub (b : BQM) (vars : List Nat) (fv : Sample) :
    ∀ L : List Nat, (∀ x ∈ L, x ∈ vars) → ∀ (acc : BQM) (w : Nat),
    w ∈ keysOf ((L.foldl (inducedStep b vars fv) acc).linear)
      → w ∈ keysOf acc.linear ∨ w ∈ vars := by
  intro L
  induction L with
  | nil => intro _ acc w h; exact Or.inl h
  | cons u rest ih =>
    intro hL acc w h
    rw [List.foldl_cons] at h
    rcases ih (fun x hx => hL x (List.mem_cons_of_mem u hx)) _ w h with h1 | h1
    · rcases inducedStep_keys_sub b vars fv acc u w h1 with h2 | h2 | h2
      · exact Or.inl h2
      · exact Or.inr (by rw [h2]; exact hL u (List.mem_cons_self u rest))
      · exact Or.inr h2
    · exact Or.inr h1

theorem ukey_pair_mem (u z w x y : Nat) (hxy : x ≠ y)
    (hcase : (u = x ∧ z = y) ∨ (u = y ∧ z = x)) :
    ukey (u, w) = ukey (x, y) ↔ w = z := by
  rw [ukey_eq_iff]
  rcases hcase with ⟨rfl, rfl⟩ | ⟨rfl, rfl⟩
  · constructor
    · rintro (he | he)
      · exact congrArg Prod.snd he
      · exact absurd (congrArg Prod.fst he) hxy
    · intro h
      exact Or.inl (by rw [h])
  · constructor
    · rintro (he | he)
      · exact absurd (congrArg Prod.fst he).symm hxy
      · exact congrArg Prod.snd he
    · intro h
      exact Or.inr (by rw [h])

theorem adj_filter_pair (b : BQM) (vars : List Nat) (u z x y : Nat)
    (hxy : x ≠ y) (hz : z ∈ vars)
    (hcase : (u = x ∧ z = y) ∨ (u = y ∧ z = x)) :
    (b.adj u).filter (fun vj => vj.1 ∈ vars ∧ ukey (u, vj.1) = ukey (x, y))
      = (b.adj u).filter (fun vj => vj.1 = z) := by
  refine filter_congr_q (b.adj u) (fun vj _ => ?_)
  rw [decide_eq_decide]
  rw [ukey_pair_mem u z vj.1 x y hxy hcase]
  constructor
  · exact And.right
  · intro h
    exact ⟨by rw [h]; exact hz, h⟩

theorem adj_filter_pair_empty (b : BQM) (vars : List Nat) (u x y : Nat)
    (hux : u ≠ x) (huy : u ≠ y) :
    (((b.adj u).filter
        (fun vj => vj.1 ∈ vars ∧ ukey (u, vj.1) = ukey (x, y))).map
      (fun vj => vj.2 / 2)).sum = 0 := by
  rw [sum_filter_if]
  apply sum_map_zero
  intro vj _
  rw [if_neg]
  rintro ⟨_, hk⟩
  rcases (ukey_eq_iff _ _).mp hk with he | he
  · exact hux (congrArg Prod.fst he)
  · exact huy (congrArg Prod.fst he)

theorem adjList_filter_quadSum (x y : Nat) (hxy : x ≠ y) :
    ∀ Q : List ((Nat × Nat) × ℚ),
    (((adjList x Q).filter (fun p => p.1 = y)).map Prod.snd).sum
      = quadSum Q (x, y) := by
  intro Q
  induction Q with
  | nil => rfl
  | cons q rest ih =>
    rw [quadSum_cons]
    simp only [adjList]
    by_cases h1 : q.1.1 = x
    · rw [if_pos h1, List.filter_cons]
      by_cases h2 : q.1.2 = y
      · have hc : decide ((q.1.2, q.2).1 = y) = true := by simp [h2]
        rw [if_pos hc, List.map_cons, List.sum_cons, ih,
          if_pos ((ukey_eq_iff _ _).mpr (Or.inl (Prod.ext h1 h2)))]
      · have hc : ¬(decide ((q.1.2, q.2).1 = y) = true) := by simp [h2]
        have hk : ¬(ukey q.1 = ukey (x, y)) := by
          rw [ukey_eq_iff]
          rintro (he | he)
          · exact h2 (congrArg Prod.snd he)
          · exact hxy (h1.symm.trans (congrArg Prod.fst he))
        rw [if_neg hc, ih, if_neg hk, zero_add]
    · by_cases h1' : q.1.2 = x
      · rw [if_neg h1, if_pos h1', List.filter_cons]
        by_cases h2 : q.1.1 = y
        · have hc : decide ((q.1.1, q.2).1 = y) = true := by simp [h2]
          rw [if_pos hc, List.map_cons, List.sum_cons, ih,
            if_pos ((ukey_eq_iff _ _).mpr (Or.inr (Prod.ext h2 h1')))]
        · have hc : ¬(decide ((q.1.1, q.2).1 = y) = true) := by simp [h2]
          have hk : ¬(ukey q.1 = ukey (x, y)) := by
            rw [ukey_eq_iff]
            rintro (he | he)
            · exact h1 (congrArg Prod.fst he)
            · exact h2 (congrArg Prod.fst he)
          rw [if_neg hc, ih, if_neg hk, zero_add]
      · have hk : ¬(ukey q.1 = ukey (x, y)) := by
          rw [ukey_eq_iff]
          rintro (he | he)
          · exact h1 (congrArg Prod.fst he)
          · exact h1' (congrArg Prod.snd he)
        rw [if_neg h1, if_neg h1', ih, if_neg hk, zero_add]

theorem adjBias_quadSum (b : BQM) (x y : Nat) (hxy : x ≠ y) :
    adjBias b x y = quadSum b.quadratic (x, y) :=
  adjList_filter_quadSum x y hxy b.quadratic

theorem filter_half_sum (b : BQM) (u z : Nat) :
    (((b.adj u).filter (fun vj => vj.1 = z)).map (fun vj => vj.2 / 2)).sum
      = adjBias b u z / 2 := by
  rw [sum_map_div ((b.adj u).filter (fun vj => vj.1 = z)) Prod.snd 2]
  rfl

theorem induced_quad_pair (b : BQM) (vars : List Nat) (x y : Nat)
    (hnd : vars.Nodup) (hx : x ∈ vars) (hy : y ∈ vars) (hxy : x ≠ y) :
    (vars.map (fun u =>
      (((b.adj u).filter
          (fun vj => vj.1 ∈ vars ∧ ukey (u, vj.1) = ukey (x, y))).map
        (fun vj => vj.2 / 2)).sum)).sum
      = quadSum b.quadratic (x, y) := by
  have h2 := sum_two x y
    (fun u =>
      (((b.adj u).filter
          (fun vj => vj.1 ∈ vars ∧ ukey (u, vj.1) = ukey (x, y))).map
        (fun vj => vj.2 / 2)).sum) hxy vars hnd hx hy
    (fun u hu hux huy => by
      show (((b.adj u).filter
          (fun vj => vj.1 ∈ vars ∧ ukey (u, vj.1) = ukey (x, y))).map
        (fun vj => vj.2 / 2)).sum = 0
      exact adj_filter_pair_empty b vars u x y hux huy)
  rw [h2]
  show (((b.adj x).filter
        (fun vj => vj.1 ∈ vars ∧ ukey (x, vj.1) = ukey (x, y))).map
      (fun vj => vj.2 / 2)).sum
    + (((b.adj y).filter
        (fun vj => vj.1 ∈ vars ∧ ukey (y, vj.1) = ukey (x, y))).map
      (fun vj => vj.2 / 2)).sum
    = quadSum b.quadratic (x, y)
  rw [adj_filter_pair b vars x y x y hxy hy (Or.inl ⟨rfl, rfl⟩),
    adj_filter_pair b vars y x x y hxy hx (Or.inr ⟨rfl, rfl⟩),
    filter_half_sum b x y, filter_half_sum b y x,
    adjBias_quadSum b x y hxy, adjBias_quadSum b y x (fun h => hxy h.symm),
    quadSum_swap]
  ring

theorem bqm_induced_by_linear (b : BQM) (vars : List Nat) (fv : Sample) :
    (bqm_induced_by b vars fv).linear
      = (vars.foldl (inducedStep b vars fv)
          { linear := [], quadratic := [], offset := 0,
            vartype := b.vartype }).linear := rfl

theorem bqm_induced_by_quadratic (b : BQM) (vars : List Nat) (fv : Sample) :
    (bqm_induced_by b vars fv).quadratic
      = (vars.foldl (inducedStep b vars fv)
          { linear := [], quadratic := [], offset := 0,
            vartype := b.vartype }).quadratic := rfl

/-- C3: bqm_induced_by returns a model over exactly the kept variables; each
kept variable's total linear bias is its original bias plus the sum of
coupling times fixed value over neighbors outside the kept set; the total
quadratic bias of each kept pair equals the original coupling (half added
from each endpoint); the offset is zero. On the 6-variable path graph with
couplings (i, i+1) = i, inducing on core {2, 3} with boundary values
{1: 3, 4: 3} gives linear biases {2: 3.0, 3: 9.0}, one quadratic term
(2, 3): 2.0, and offset 0. -/
theorem C3_bqm_induced_by (b : BQM) (vars : List Nat) (fv : Sample)
    (hnd : vars.Nodup)
    (_hfv : ∀ u ∈ vars, ∀ vj ∈ b.adj u, vj.1 ∉ vars → vj.1 ∈ keysOf fv) :
    (∀ w, w ∈ (bqm_induced_by b vars fv).variables ↔ w ∈ vars) ∧
    (∀ u ∈ vars, linSum (bqm_induced_by b vars fv).linear u
        = lookupD b.linear u
          + (((b.adj u).filter (fun vj => vj.1 ∉ vars)).map
              (fun vj => vj.2 * lookupD fv vj.1)).sum) ∧
    (∀ x y, x ∈ vars → y ∈ vars → x ≠ y →
      quadSum (bqm_induced_by b vars fv).quadratic (x, y)
        = quadSum b.quadratic (x, y)) ∧
    (bqm_induced_by b vars fv).offset = 0 ∧
    bqm_induced_by pathBqm [2, 3] [(1, 3), (4, 3)]
      = { linear := [(2, 3), (3, 9)], quadratic := [((2, 3), 2)],
          offset := 0, vartype := Vartype.BINARY } := by
  refine ⟨?_, ?_, ?_, rfl, ?_⟩
  · intro w
    constructor
    · intro h
      have h2 : w ∈ keysOf (bqm_induced_by b vars fv).linear := h
      rw [bqm_induced_by_linear] at h2
      rcases induced_fold_keys_sub b vars fv vars (fun x hx => hx) _ w h2 with h3 | h3
      · exact absurd h3 (List.not_mem_nil w)
      · exact h3
    · intro h
      have h2 : w ∈ keysOf (vars.foldl (inducedStep b vars fv)
          { linear := [], quadratic := [], offset := 0,
            vartype := b.vartype } : BQM).linear :=
        induced_fold_keys_mem b vars fv vars _ w h
      rw [← bqm_induced_by_linear] at h2
      exact h2
  · intro u hu
    have hz : linSum (({ linear := [], quadratic := [], offset := 0, vartype := b.vartype } : BQM)).linear u = 0 := rfl
    rw [bqm_induced_by_linear, induced_fold_linSum b vars fv vars hnd _ u,
      if_pos hu, hz, zero_add]
  · intro x y hx hy hxy
    have hz : quadSum (({ linear := [], quadratic := [], offset := 0, vartype := b.vartype } : BQM)).quadratic (x, y) = 0 := rfl
    rw [bqm_induced_by_quadratic, induced_fold_quadSum b vars fv (x, y) vars _,
      hz, zero_add]
    exact induced_quad_pair b vars x y hnd hx hy hxy
  · norm_num [bqm_induced_by, inducedStep, innerF, BQM.adj, adjList, pathBqm,
      lookupD, lookup?, addInteraction, addVariable, ensureVar, bumpLin,
      bumpQuad, ukey, keysOf, List.foldl]

/-- Witness for C3 at the path-graph docstring instance. -/
theorem C3_witness :
    ([2, 3] : List Nat).Nodup ∧
    (∀ u ∈ ([2, 3] : List Nat), ∀ vj ∈ pathBqm.adj u,
      vj.1 ∉ ([2, 3] : List Nat) → vj.1 ∈ keysOf [(1, 3), (4, 3)]) ∧
    bqm_induced_by pathBqm [2, 3] [(1, 3), (4, 3)]
      = { linear := [(2, 3), (3, 9)], quadratic := [((2, 3), 2)],
          offset := 0, vartype := Vartype.BINARY } :=
  ⟨by decide, by decide,
    (C3_bqm_induced_by pathBqm [2, 3] [(1, 3), (4, 3)]
      (by decide) (by decide)).2.2.2.2⟩
